import Mathlib

/-!
Shallow embedding of the scheduling core of `src/app.py` (and the
`normalize_order_references` text pre-pass), together with proofs about it.

Modelling conventions, used throughout:

* Timestamps are rationals measured in hours relative to the base start
  `datetime(2025, 11, 3, 6, 0)`; `pandas` datetime arithmetic on this scale is
  exact rational arithmetic (floats only enter through durations, which the
  idealised model keeps as exact rationals).
* A `pandas` `DataFrame` of schedule rows is a `List Op`; the list position is
  the dataframe index, which `app.py` never reorders (it only writes `start`
  and `end` back through `.at[idx, ...]`).
* `sort_values` is modelled by the stable `List.insertionSort` on the same
  key.  `pandas`' default quicksort is not stable, but no statement proved
  below depends on the order of key-ties (concrete counterexamples are
  tie-free on the sort keys involved).
-/

namespace Sched

/- `Rat.mul` and friends are `@[irreducible]` in Batteries, which blocks the
`decide`-based evaluation of concrete schedules; re-allow unfolding them
locally (the kernel ignores reducibility attributes anyway). -/
attribute [local semireducible] Rat.mul Rat.add Rat.sub Rat.inv Rat.ofScientific

/-- One schedule row, as built in `load_and_generate_data` (`src/app.py`,
lines 108-118).  `stop` models the `end` column (`end` is a Lean keyword);
`due` models `due_date` and `sku` models `wheel_type`.  The display-only
`machine_name` column (a pure lookup into `lines.csv`) is omitted. -/
structure Op where
  order_id : String
  operation : String
  sequence : ℕ
  machine : String
  start : ℚ
  stop : ℚ
  due : ℚ
  sku : String
deriving DecidableEq, Repr

/-- One row of `data/orders.csv` (the external `OrderSource` input). -/
structure Order where
  order_id : String
  sku_id : String
  qty_kg : ℚ
  due_date : ℚ
deriving DecidableEq, Repr

/-- The per-machine next-free-instant map `machine_timeline`. -/
abbrev Timeline := String → ℚ

/-- Functional update of a `Timeline` (a Python dict assignment). -/
def updTl (tl : Timeline) (m : String) (v : ℚ) : Timeline :=
  fun x => if x = m then v else tl x

/-- The `line_map` dict of `src/app.py` lines 63-68; it is only ever read at
the four keys MIX/TRF/FILL/FIN. -/
def line_map (k : String) : String :=
  if k = "MIX" then "MIX_1"
  else if k = "TRF" then "TRANS_1"
  else if k = "FILL" then "FILL_1"
  else "FIN_1"

/-- The `time_percentages` table (`src/app.py` lines 55-59) together with the
`.get(sku, <shampoo row>)` fallback of line 82. -/
def ratioRow (sku : String) (k : String) : ℚ :=
  if sku = "VRAC_CONDITIONER_BASE" then
    if k = "MIX" then 0.100 else if k = "TRF" then 0.050
    else if k = "FILL" then 0.100 else 0.050
  else if sku = "VRAC_HAIR_MASK" then
    if k = "MIX" then 0.130 else if k = "TRF" then 0.110
    else if k = "FILL" then 0.100 else 0.070
  else
    if k = "MIX" then 0.100 else if k = "TRF" then 0.090
    else if k = "FILL" then 0.130 else 0.080

/-- The fixed `operations` list of `src/app.py` lines 85-90 (kind and
sequence number; the ratio is looked up per sku). -/
def opKinds : List (String × ℕ) := [("MIX", 1), ("TRF", 2), ("FILL", 3), ("FIN", 4)]

/-- The inner `for op_type, time_pct, seq in operations` loop of
`load_and_generate_data` (lines 95-121).  `prevEnd = none` plays the role of
`order_start_time is None` (both hold exactly on the first operation of the
order).  Returns the rows placed for this order and the updated timeline. -/
def placeOps (o : Order) : List (String × ℕ) → Timeline → Option ℚ → List Op × Timeline
  | [], tl, _ => ([], tl)
  | (k, seq) :: rest, tl, prevEnd =>
    let machine := line_map k
    let duration := o.qty_kg / 300 * ratioRow o.sku_id k
    let opStart :=
      match prevEnd with
      | none => tl machine
      | some pe => max pe (tl machine)
    let opEnd := opStart + duration
    let row : Op :=
      ⟨o.order_id, k, seq, machine, opStart, opEnd, o.due_date, o.sku_id⟩
    let next := placeOps o rest (updTl tl machine opEnd) (some opEnd)
    (row :: next.1, next.2)

/-- The outer `for idx, order in orders_sorted.iterrows()` loop. -/
def schedLoop : List Order → Timeline → List Op
  | [], _ => []
  | o :: rest, tl =>
    let r := placeOps o opKinds tl none
    r.1 ++ schedLoop rest r.2

/-- The sort key of `orders_df.sort_values(['due_date', 'order_id'])`. -/
def orderKeyLe (a b : Order) : Prop :=
  a.due_date < b.due_date ∨ (a.due_date = b.due_date ∧ a.order_id ≤ b.order_id)

instance : DecidableRel orderKeyLe := fun a b =>
  inferInstanceAs (Decidable
    (a.due_date < b.due_date ∨ (a.due_date = b.due_date ∧ a.order_id ≤ b.order_id)))

/-- `load_and_generate_data` (`src/app.py` lines 50-124), minus the csv I/O:
the order list stands for the parsed `data/orders.csv`.  The base start is
time `0` and every machine starts free at it (line 72). -/
def load_and_generate_data (orders : List Order) : List Op :=
  schedLoop (List.insertionSort orderKeyLe orders) (fun _ => 0)

/-! ### Spec-side restatement of the initial scheduler (for claim C4)

`initSchedulerSpec` is written from the words of the specification/claim:
orders sorted by `due_date` then `order_id`; for each order the four kinds
MIX, TRF, FILL, FIN in this fixed sequence on their fixed machines;
`duration = qty/300 * ratio`; `start = max(machine free instant, previous
operation's end)` except that the first operation takes the machine's free
instant with no predecessor constraint; `end = start + duration`; the
machine's free instant then advances to `end`. -/

/-- Place the four operations of one order, written out operation by
operation following the specification's contract. -/
def specPlaceOrder (tl : Timeline) (o : Order) : List Op × Timeline :=
  let dMix := o.qty_kg / 300 * ratioRow o.sku_id "MIX"
  let sMix := tl "MIX_1"
  let eMix := sMix + dMix
  let tl1 := updTl tl "MIX_1" eMix
  let dTrf := o.qty_kg / 300 * ratioRow o.sku_id "TRF"
  let sTrf := max eMix (tl1 "TRANS_1")
  let eTrf := sTrf + dTrf
  let tl2 := updTl tl1 "TRANS_1" eTrf
  let dFill := o.qty_kg / 300 * ratioRow o.sku_id "FILL"
  let sFill := max eTrf (tl2 "FILL_1")
  let eFill := sFill + dFill
  let tl3 := updTl tl2 "FILL_1" eFill
  let dFin := o.qty_kg / 300 * ratioRow o.sku_id "FIN"
  let sFin := max eFill (tl3 "FIN_1")
  let eFin := sFin + dFin
  let tl4 := updTl tl3 "FIN_1" eFin
  ([⟨o.order_id, "MIX", 1, "MIX_1", sMix, eMix, o.due_date, o.sku_id⟩,
    ⟨o.order_id, "TRF", 2, "TRANS_1", sTrf, eTrf, o.due_date, o.sku_id⟩,
    ⟨o.order_id, "FILL", 3, "FILL_1", sFill, eFill, o.due_date, o.sku_id⟩,
    ⟨o.order_id, "FIN", 4, "FIN_1", sFin, eFin, o.due_date, o.sku_id⟩], tl4)

/-- Spec-side initial scheduler: fold `specPlaceOrder` over the sorted
orders. -/
def specSchedLoop : List Order → Timeline → List Op
  | [], _ => []
  | o :: rest, tl =>
    let r := specPlaceOrder tl o
    r.1 ++ specSchedLoop rest r.2

/-- Spec-side initial scheduler, sorted by (`due_date`, `order_id`). -/
def initSchedulerSpec (orders : List Order) : List Op :=
  specSchedLoop (List.insertionSort orderKeyLe orders) (fun _ => 0)

/-! ### The repair engine and the mutation operations -/

/-- Dataframe rows with their indices (`s.index` order); `enumF n l` pairs
the elements of `l` with `n, n+1, ...`. -/
def enumF : ℕ → List Op → List (ℕ × Op)
  | _, [] => []
  | n, a :: l => (n, a) :: enumF (n + 1) l

/-- The key of `block.sort_values(["start", "end"])` in
`_repack_touched_machines`. -/
def rowLe (a b : ℕ × Op) : Prop :=
  a.2.start < b.2.start ∨ (a.2.start = b.2.start ∧ a.2.stop ≤ b.2.stop)

instance : DecidableRel rowLe := fun a b =>
  inferInstanceAs (Decidable
    (a.2.start < b.2.start ∨ (a.2.start = b.2.start ∧ a.2.stop ≤ b.2.stop)))

/-- `s.loc[block_idx].sort_values(["start", "end"])`: the rows of machine
`m` with their dataframe indices, sorted by (`start`, `end`). -/
def blockOf (s : List Op) (m : String) : List (ℕ × Op) :=
  List.insertionSort rowLe ((enumF 0 s).filter (fun p => decide (p.2.machine = m)))

/-- The `last_end` walk of `_repack_touched_machines` (`src/app.py` lines
479-485): each row whose `start` precedes the running `last_end` is shifted
forward to `start = last_end` with its duration preserved; `last_end` then
becomes the (possibly shifted) row's `end`. -/
def repackChain : Option ℚ → List (ℕ × Op) → List (ℕ × Op)
  | _, [] => []
  | none, (i, op) :: rest => (i, op) :: repackChain (some op.stop) rest
  | some le, (i, op) :: rest =>
    if op.start < le then
      let op' : Op := { op with start := le, stop := le + (op.stop - op.start) }
      (i, op') :: repackChain (some op'.stop) rest
    else
      (i, op) :: repackChain (some op.stop) rest

/-- Write the walked block back into the dataframe by index
(`s.at[idx, "start"] = ...`); rows whose index carries no update are left
alone. -/
def applyUpdates (s : List Op) (u : List (ℕ × Op)) : List Op :=
  (enumF 0 s).map (fun p => (u.lookup p.1).getD p.2)

/-- One iteration of the `for m in machines` loop of
`_repack_touched_machines`. -/
def repackMachine (s : List Op) (m : String) : List Op :=
  applyUpdates s (repackChain none (blockOf s m))

/-- First-occurrence deduplication, as `pandas` `Series.unique`. -/
def uniqueFirst : List String → List String
  | [] => []
  | x :: xs => x :: (uniqueFirst xs).filter (fun y => decide (y ≠ x))

/-- `s.loc[s["order_id"].isin(touched_orders), "machine"].unique()`. -/
def touchedMachines (s : List Op) (touched : List String) : List String :=
  uniqueFirst (((s.filter (fun op => decide (op.order_id ∈ touched))).map (·.machine)))

/-- `_repack_touched_machines` (`src/app.py` lines 474-486). -/
def _repack_touched_machines (s : List Op) (touched : List String) : List Op :=
  (touchedMachines s touched).foldl repackMachine s

/-- The uniform shift of every operation of `order_id` by `delta` hours
(`apply_delay` lines 499-502: `start += delta; end = start' + dur`).  The
Python loop visits the order's rows sorted by `sequence`, but the shift is
per-row, so row order is irrelevant. -/
def shiftOrder (s : List Op) (oid : String) (delta : ℚ) : List Op :=
  s.map (fun op =>
    if op.order_id = oid then
      { op with start := op.start + delta, stop := op.start + delta + (op.stop - op.start) }
    else op)

/-- `apply_delay` (`src/app.py` lines 489-504).  `timedelta(days=d, hours=h,
minutes=m)` is `d*24 + h + m/60` hours; `days or 0` etc. resolve `None`
arguments to `0` before this function is reached in the model. -/
def apply_delay (s : List Op) (oid : String) (days hours minutes : ℚ) : List Op :=
  _repack_touched_machines (shiftOrder s oid (days * 24 + hours + minutes / 60)) [oid]

/-- `s.loc[s["order_id"] == order_id, "start"].min()`; the `0` default is
never reached where the function is used (the caller guards emptiness). -/
def minStart (s : List Op) (oid : String) : ℚ :=
  match (s.filter (fun op => decide (op.order_id = oid))).map (·.start) with
  | [] => 0
  | x :: xs => xs.foldl min x

/-- `⌊d / 24⌋`: the `.days` component of a non-integral `timedelta` of `d`
hours (Python normalises so that `days` is the floor). -/
def tdDays (d : ℚ) : ℤ := ⌊d / 24⌋

/-- The `.seconds` component of a `timedelta` of `d` hours: the whole seconds
of the remainder after removing `days`, always in `[0, 86400)`. -/
def tdSecs (d : ℚ) : ℕ := (⌊d * 3600⌋ - 86400 * ⌊d / 24⌋).toNat

/-- `apply_swap` (`src/app.py` lines 507-525).  The deltas are passed to
`apply_delay` through `da.days`, `da.seconds // 3600` and
`(da.seconds % 3600) // 60` — i.e. through the whole day, hour and minute
components of the `timedelta`, which discards any sub-minute remainder.  If
either order has no rows, the Python `min()` is `NaN` and the subsequent
`timedelta` construction raises, which the caller catches leaving the
schedule unchanged; the model returns `s` unchanged in that case. -/
def apply_swap (s : List Op) (a b : String) : List Op :=
  if s.filter (fun op => decide (op.order_id = a)) = [] ∨
     s.filter (fun op => decide (op.order_id = b)) = [] then s
  else
    let a0 := minStart s a
    let b0 := minStart s b
    let da := b0 - a0
    let db := a0 - b0
    let s1 := apply_delay s a (tdDays da) (tdSecs da / 3600 : ℕ) ((tdSecs da % 3600) / 60 : ℕ)
    apply_delay s1 b (tdDays db) (tdSecs db / 3600 : ℕ) ((tdSecs db % 3600) / 60 : ℕ)

/-! ### Basic schedule predicates -/

/-- The rows assigned to machine `m`, in dataframe order. -/
def opsOn (m : String) (s : List Op) : List Op :=
  s.filter (fun op => decide (op.machine = m))

/-- Two operations occupy non-overlapping (or touching) `[start, end)`
intervals. -/
def nonov (a b : Op) : Prop := a.stop ≤ b.start ∨ b.stop ≤ a.start

instance : DecidableRel nonov := fun a b =>
  inferInstanceAs (Decidable (a.stop ≤ b.start ∨ b.stop ≤ a.start))

/-- The key of `sort_values("sequence")`. -/
def seqLe (a b : Op) : Prop := a.sequence ≤ b.sequence

instance : DecidableRel seqLe := fun a b =>
  inferInstanceAs (Decidable (a.sequence ≤ b.sequence))

/-- The operations of one order, sorted by `sequence`. -/
def opsOfOrder (s : List Op) (oid : String) : List Op :=
  List.insertionSort seqLe (s.filter (fun op => decide (op.order_id = oid)))

/-- Boolean chain check (used for kernel-computable decidability of the
`Chain'`-based predicates below; the library instance for `Chain'` is not
kernel-reducible). -/
def chainB {α : Type} (f : α → α → Bool) : List α → Bool
  | [] => true
  | [_] => true
  | a :: b :: l => f a b && chainB f (b :: l)

lemma chainB_iff {α : Type} (f : α → α → Bool) :
    ∀ l : List α, chainB f l = true ↔ List.Chain' (fun a b => f a b = true) l
  | [] => by simp [chainB]
  | [a] => by simp [chainB]
  | a :: b :: l => by
    rw [List.chain'_cons, chainB, Bool.and_eq_true, chainB_iff f (b :: l)]

/-- The order-sequence invariant for one order: consecutive operations (by
`sequence`) do not start before their predecessor ends. -/
def seqChainOk (s : List Op) (oid : String) : Prop :=
  List.Chain' (fun a b => a.stop ≤ b.start) (opsOfOrder s oid)

instance (s : List Op) (oid : String) : Decidable (seqChainOk s oid) :=
  decidable_of_iff
    (chainB (fun a b : Op => decide (a.stop ≤ b.start)) (opsOfOrder s oid) = true)
    (by rw [chainB_iff]; simp [seqChainOk])

/-- All machine names occurring in the schedule, first occurrences first. -/
def machinesOf (s : List Op) : List String := uniqueFirst (s.map (·.machine))

/-- Machine `m`'s rows, sorted by (`start`, `end`), already form a
left-to-right chain (`start[i+1] ≥ end[i]`): the walk of
`_repack_touched_machines` shifts nothing on `m`. -/
def noOverlapSorted (s : List Op) (m : String) : Prop :=
  List.Chain' (fun p q => p.2.stop ≤ q.2.start) (blockOf s m)

instance (s : List Op) (m : String) : Decidable (noOverlapSorted s m) :=
  decidable_of_iff
    (chainB (fun p q : ℕ × Op => decide (p.2.stop ≤ q.2.start)) (blockOf s m) = true)
    (by rw [chainB_iff]; simp [noOverlapSorted])

/-- The schedules reachable from the initial build by `apply_delay` /
`apply_swap` mutations (with any delta; a swap of absent orders is the
identity, see `apply_swap`). -/
inductive Reachable (orders : List Order) : List Op → Prop
  | init : Reachable orders (load_and_generate_data orders)
  | delay (oid : String) (d h m : ℚ) {s : List Op} :
      Reachable orders s → Reachable orders (apply_delay s oid d h m)
  | swap (a b : String) {s : List Op} :
      Reachable orders s → Reachable orders (apply_swap s a b)

lemma placeOps_eq_specPlaceOrder (o : Order) (tl : Timeline) :
    placeOps o opKinds tl none = specPlaceOrder tl o := by
  rfl

lemma schedLoop_eq_specSchedLoop :
    ∀ (orders : List Order) (tl : Timeline), schedLoop orders tl = specSchedLoop orders tl
  | [], _ => rfl
  | o :: rest, tl => by
    show (placeOps o opKinds tl none).1 ++ _ = (specPlaceOrder tl o).1 ++ _
    rw [placeOps_eq_specPlaceOrder]
    exact congrArg _ (schedLoop_eq_specSchedLoop rest _)

/-! ### Row-enumeration and lookup helper lemmas -/

lemma enumF_map_snd : ∀ (n : ℕ) (l : List Op), (enumF n l).map Prod.snd = l
  | _, [] => rfl
  | n, a :: l => by simp [enumF, enumF_map_snd (n + 1) l]

lemma enumF_key_lb : ∀ {n : ℕ} {l : List Op} {p : ℕ × Op}, p ∈ enumF n l → n ≤ p.1 := by
  intro n l
  induction l generalizing n with
  | nil => intro p h; simp [enumF] at h
  | cons a l ih =>
    intro p h
    rcases (by simpa [enumF] using h : p = (n, a) ∨ p ∈ enumF (n + 1) l) with h1 | h2
    · simp [h1]
    · exact Nat.le_of_succ_le (ih h2)

lemma enumF_mem_cases {n : ℕ} {x : Op} {l : List Op} {p : ℕ × Op}
    (h : p ∈ enumF n (x :: l)) : p = (n, x) ∨ p ∈ enumF (n + 1) l := by
  simpa [enumF] using h

lemma enumF_functional {n : ℕ} {l : List Op} {i : ℕ} {a b : Op}
    (ha : (i, a) ∈ enumF n l) (hb : (i, b) ∈ enumF n l) : a = b := by
  induction l generalizing n with
  | nil => simp [enumF] at ha
  | cons x l ih =>
    rcases enumF_mem_cases ha with h1 | h1
    · rcases enumF_mem_cases hb with h2 | h2
      · rw [Prod.mk.injEq] at h1 h2
        rw [h1.2, h2.2]
      · have := enumF_key_lb h2
        rw [Prod.mk.injEq] at h1
        omega
    · rcases enumF_mem_cases hb with h2 | h2
      · have := enumF_key_lb h1
        rw [Prod.mk.injEq] at h2
        omega
      · exact ih h1 h2

lemma enumF_keys_nodup : ∀ (n : ℕ) (l : List Op), ((enumF n l).map Prod.fst).Nodup := by
  intro n l
  induction l generalizing n with
  | nil => simp [enumF]
  | cons a l ih =>
    rw [show enumF n (a :: l) = (n, a) :: enumF (n + 1) l from rfl, List.map_cons]
    refine List.nodup_cons.2 ⟨?_, ih (n + 1)⟩
    intro hmem
    rcases List.mem_map.1 hmem with ⟨p, hp, hkey⟩
    have := enumF_key_lb hp
    omega

lemma enumF_filter_map_snd (q : Op → Bool) :
    ∀ (n : ℕ) (l : List Op),
      ((enumF n l).filter (fun p => q p.2)).map Prod.snd = l.filter q
  | _, [] => rfl
  | n, a :: l => by
    by_cases h : q a = true <;>
      simp [enumF, List.filter_cons, h, enumF_filter_map_snd q (n + 1) l]

lemma mem_of_lookup_eq_some : ∀ {u : List (ℕ × Op)} {i : ℕ} {v : Op},
    u.lookup i = some v → (i, v) ∈ u := by
  intro u
  induction u with
  | nil => intro i v h; simp at h
  | cons p u ih =>
    intro i v h
    obtain ⟨k, b⟩ := p
    rw [List.lookup_cons] at h
    by_cases hk : (i == k) = true
    · rw [hk] at h
      obtain rfl : b = v := by simpa using h
      obtain rfl : i = k := by simpa using hk
      exact List.mem_cons_self _ _
    · rw [Bool.not_eq_true] at hk
      rw [hk] at h
      exact List.mem_cons_of_mem _ (ih h)

lemma lookup_eq_some_of_mem_nodup : ∀ {u : List (ℕ × Op)},
    (u.map Prod.fst).Nodup → ∀ {i : ℕ} {v : Op}, (i, v) ∈ u → u.lookup i = some v := by
  intro u
  induction u with
  | nil => intro _ i v h; simp at h
  | cons p u ih =>
    intro hnd i v h
    obtain ⟨k, b⟩ := p
    rw [List.map_cons, List.nodup_cons] at hnd
    rcases List.mem_cons.1 h with heq | hmem
    · rw [Prod.mk.injEq] at heq
      rw [List.lookup_cons, heq.1, heq.2]
      simp
    · have hne : (i == k) = false := by
        refine beq_eq_false_iff_ne.2 ?_
        intro hik
        refine hnd.1 (List.mem_map.2 ⟨(i, v), hmem, ?_⟩)
        rw [hik]
      rw [List.lookup_cons, hne]
      exact ih hnd.2 hmem

/-! ### Properties of the repack walk -/

/-- Everything about a row except its absolute placement: identity fields
plus the duration `end − start`. -/
def rowKey (op : Op) : String × String × ℕ × String × ℚ × ℚ × String :=
  (op.order_id, op.operation, op.sequence, op.machine, op.stop - op.start, op.due, op.sku)

lemma repackChain_keys : ∀ (le : Option ℚ) (l : List (ℕ × Op)),
    (repackChain le l).map Prod.fst = l.map Prod.fst
  | _, [] => by cases ‹Option ℚ› <;> rfl
  | none, (i, op) :: rest => by
    simp [repackChain, repackChain_keys (some op.stop) rest]
  | some le, (i, op) :: rest => by
    by_cases h : op.start < le <;>
      simp [repackChain, h, repackChain_keys _ rest]

lemma repackChain_mem : ∀ {le : Option ℚ} {l : List (ℕ × Op)} {q : ℕ × Op},
    q ∈ repackChain le l → ∃ p ∈ l, q.1 = p.1 ∧ rowKey q.2 = rowKey p.2 := by
  intro le l
  induction l generalizing le with
  | nil => intro q h; cases le <;> simp [repackChain] at h
  | cons p rest ih =>
    intro q h
    obtain ⟨i, op⟩ := p
    have step : ∀ (op' : Op), rowKey op' = rowKey op →
        q = (i, op') ∨ (∃ r ∈ rest, q.1 = r.1 ∧ rowKey q.2 = rowKey r.2) →
        ∃ r ∈ (i, op) :: rest, q.1 = r.1 ∧ rowKey q.2 = rowKey r.2 := by
      intro op' hk hq
      rcases hq with rfl | ⟨r, hr, h1, h2⟩
      · exact ⟨(i, op), List.mem_cons_self _ _, rfl, hk⟩
      · exact ⟨r, List.mem_cons_of_mem _ hr, h1, h2⟩
    have hkey : ∀ v : ℚ,
        rowKey { op with start := v, stop := v + (op.stop - op.start) } = rowKey op := by
      intro v
      simp only [rowKey, Prod.mk.injEq, eq_self_iff_true, true_and, and_true]
      ring
    cases le with
    | none =>
      rcases List.mem_cons.1 (by simpa [repackChain] using h) with h1 | h1
      · exact step op rfl (Or.inl h1)
      · exact step op rfl (Or.inr (ih h1))
    | some v =>
      by_cases hlt : op.start < v
      · rw [repackChain, if_pos hlt] at h
        rcases List.mem_cons.1 h with h1 | h1
        · exact step _ (hkey v) (Or.inl h1)
        · exact step _ (hkey v) (Or.inr (ih h1))
      · rw [repackChain, if_neg hlt] at h
        rcases List.mem_cons.1 h with h1 | h1
        · exact step op rfl (Or.inl h1)
        · exact step op rfl (Or.inr (ih h1))

lemma repackChain_lb : ∀ (l : List (ℕ × Op)) (v : ℚ),
    (∀ p ∈ l, p.2.start ≤ p.2.stop) →
    ∀ q ∈ repackChain (some v) l, v ≤ q.2.start := by
  intro l
  induction l with
  | nil => intro v _ q h; simp [repackChain] at h
  | cons p rest ih =>
    intro v hd q hq
    obtain ⟨i, op⟩ := p
    have hdop : op.start ≤ op.stop := hd _ (List.mem_cons_self _ _)
    have hdrest : ∀ p ∈ rest, p.2.start ≤ p.2.stop :=
      fun p hp => hd p (List.mem_cons_of_mem _ hp)
    by_cases hlt : op.start < v
    · rw [repackChain, if_pos hlt] at hq
      rcases List.mem_cons.1 hq with rfl | hq'
      · exact le_refl v
      · have := ih (v + (op.stop - op.start)) hdrest q hq'
        linarith
    · rw [repackChain, if_neg hlt] at hq
      rcases List.mem_cons.1 hq with rfl | hq'
      · exact le_of_not_lt hlt
      · have := ih op.stop hdrest q hq'
        have := le_of_not_lt hlt
        linarith

lemma repackChain_pairwise : ∀ (l : List (ℕ × Op)) (le : Option ℚ),
    (∀ p ∈ l, p.2.start ≤ p.2.stop) →
    List.Pairwise (fun p q : ℕ × Op => p.2.stop ≤ q.2.start) (repackChain le l) := by
  intro l
  induction l with
  | nil => intro le _; cases le <;> simp [repackChain]
  | cons p rest ih =>
    intro le hd
    obtain ⟨i, op⟩ := p
    have hdop : op.start ≤ op.stop := hd _ (List.mem_cons_self _ _)
    have hdrest : ∀ p ∈ rest, p.2.start ≤ p.2.stop :=
      fun p hp => hd p (List.mem_cons_of_mem _ hp)
    cases le with
    | none =>
      rw [repackChain]
      exact List.Pairwise.cons (fun q hq => repackChain_lb rest op.stop hdrest q hq)
        (ih _ hdrest)
    | some v =>
      by_cases hlt : op.start < v
      · rw [repackChain, if_pos hlt]
        exact List.Pairwise.cons (fun q hq => repackChain_lb rest _ hdrest q hq)
          (ih _ hdrest)
      · rw [repackChain, if_neg hlt]
        exact List.Pairwise.cons (fun q hq => repackChain_lb rest _ hdrest q hq)
          (ih _ hdrest)

lemma repackChain_noop : ∀ (l : List (ℕ × Op)) (le : Option ℚ),
    (∀ v, le = some v → ∀ p ∈ l.head?, v ≤ p.2.start) →
    List.Chain' (fun p q : ℕ × Op => p.2.stop ≤ q.2.start) l →
    repackChain le l = l := by
  intro l
  induction l with
  | nil => intro le _ _; cases le <;> rfl
  | cons p rest ih =>
    intro le hhead hchain
    obtain ⟨i, op⟩ := p
    rw [List.chain'_cons'] at hchain
    have hrest : repackChain (some op.stop) rest = rest := by
      refine ih _ ?_ hchain.2
      intro v hv q hq
      cases hv
      exact hchain.1 q hq
    cases le with
    | none => rw [repackChain, hrest]
    | some v =>
      have hv : v ≤ op.start := by
        simpa using hhead v rfl (i, op) (by simp)
      rw [repackChain, if_neg (not_lt.2 hv), hrest]


/-! ### Properties of one repack pass -/

lemma enumF_mem_snd {n : ℕ} {l : List Op} {p : ℕ × Op} (h : p ∈ enumF n l) : p.2 ∈ l := by
  have := List.mem_map_of_mem Prod.snd h
  rwa [enumF_map_snd] at this

lemma blockOf_mem {s : List Op} {m : String} {p : ℕ × Op} (h : p ∈ blockOf s m) :
    p ∈ enumF 0 s ∧ p.2.machine = m := by
  rw [blockOf, List.mem_insertionSort] at h
  have := List.mem_filter.1 h
  exact ⟨this.1, by simpa using this.2⟩

lemma blockOf_keys_nodup (s : List Op) (m : String) :
    ((blockOf s m).map Prod.fst).Nodup := by
  have hsub : List.Sublist
      (((enumF 0 s).filter (fun p => decide (p.2.machine = m))).map Prod.fst)
      ((enumF 0 s).map Prod.fst) := (List.filter_sublist _).map _
  have hnd := hsub.nodup (enumF_keys_nodup 0 s)
  have hperm := (List.perm_insertionSort rowLe
    ((enumF 0 s).filter (fun p => decide (p.2.machine = m)))).map Prod.fst
  exact hperm.nodup_iff.2 hnd

/-- The looked-up row written back at index `i` by `repackMachine s m`:
a row with the same identity fields and duration as the row originally at
`i`, which lies on machine `m`. -/
lemma lookup_repack_eq_some {s : List Op} {m : String} {i : ℕ} {v : Op}
    (h : (repackChain none (blockOf s m)).lookup i = some v) :
    ∃ op, (i, op) ∈ enumF 0 s ∧ op.machine = m ∧ rowKey v = rowKey op := by
  obtain ⟨p, hp, hkey, hrk⟩ := repackChain_mem (mem_of_lookup_eq_some h)
  obtain ⟨henum, hm⟩ := blockOf_mem hp
  refine ⟨p.2, ?_, hm, hrk⟩
  have hi : i = p.1 := hkey
  rw [hi]
  exact henum

/-- The per-row function applied by `repackMachine s m` preserves every
field of `rowKey` (identity and duration). -/
lemma repack_fun_rowKey (s : List Op) (m : String) :
    ∀ p ∈ enumF 0 s,
      rowKey (((repackChain none (blockOf s m)).lookup p.1).getD p.2) = rowKey p.2 := by
  intro p hp
  cases hl : (repackChain none (blockOf s m)).lookup p.1 with
  | none => rfl
  | some v =>
    obtain ⟨op, henum, _, hrk⟩ := lookup_repack_eq_some hl
    have : op = p.2 := enumF_functional henum hp
    rw [Option.getD_some, hrk, this]

lemma repack_fun_of_not_machine {s : List Op} {m : String} {p : ℕ × Op}
    (hp : p ∈ enumF 0 s) (hm : p.2.machine ≠ m) :
    ((repackChain none (blockOf s m)).lookup p.1).getD p.2 = p.2 := by
  cases hl : (repackChain none (blockOf s m)).lookup p.1 with
  | none => rfl
  | some v =>
    obtain ⟨op, henum, hopm, _⟩ := lookup_repack_eq_some hl
    exact absurd (enumF_functional henum hp ▸ hopm) hm

lemma repackMachine_eq_map (s : List Op) (m : String) :
    repackMachine s m =
      (enumF 0 s).map (fun p => ((repackChain none (blockOf s m)).lookup p.1).getD p.2) := by
  rfl

lemma enumF_map_comp {β : Type} (g : Op → β) (n : ℕ) (l : List Op) :
    (enumF n l).map (fun p => g p.2) = l.map g := by
  have h : (fun p : ℕ × Op => g p.2) = g ∘ Prod.snd := rfl
  rw [h, ← List.map_map, enumF_map_snd]

lemma repackMachine_rowKey (s : List Op) (m : String) :
    (repackMachine s m).map rowKey = s.map rowKey := by
  have h : ∀ p ∈ enumF 0 s,
      (rowKey ∘ fun p : ℕ × Op =>
        ((repackChain none (blockOf s m)).lookup p.1).getD p.2) p
        = (fun p : ℕ × Op => rowKey p.2) p :=
    fun p hp => repack_fun_rowKey s m p hp
  rw [repackMachine_eq_map, List.map_map, List.map_congr_left h, enumF_map_comp]

lemma opsOn_repackMachine_ne {s : List Op} {m m' : String} (h : m' ≠ m) :
    opsOn m' (repackMachine s m) = opsOn m' s := by
  rw [opsOn, repackMachine_eq_map, List.filter_map]
  have h1 : ((enumF 0 s).filter
      ((fun op => decide (op.machine = m')) ∘
        fun p => ((repackChain none (blockOf s m)).lookup p.1).getD p.2)) =
      (enumF 0 s).filter (fun p => decide (p.2.machine = m')) := by
    refine List.filter_congr ?_
    intro p hp
    show decide ((((repackChain none (blockOf s m)).lookup p.1).getD p.2).machine = m')
      = decide (p.2.machine = m')
    have hmach : (((repackChain none (blockOf s m)).lookup p.1).getD p.2).machine
        = p.2.machine := congrArg (fun t => t.2.2.2.1) (repack_fun_rowKey s m p hp)
    rw [hmach]
  rw [h1]
  have h2 : ∀ p ∈ (enumF 0 s).filter (fun p => decide (p.2.machine = m')),
      ((repackChain none (blockOf s m)).lookup p.1).getD p.2 = Prod.snd p := by
    intro p hp
    have hp' := List.mem_filter.1 hp
    refine repack_fun_of_not_machine hp'.1 ?_
    have : p.2.machine = m' := by simpa using hp'.2
    rw [this]
    exact h
  rw [List.map_congr_left h2,
    enumF_filter_map_snd (fun op => decide (op.machine = m'))]
  rfl

lemma opsOn_repackMachine_self (s : List Op) (m : String)
    (hd : ∀ op ∈ s, op.start ≤ op.stop) :
    List.Pairwise nonov (opsOn m (repackMachine s m)) := by
  have hnonov_symm : ∀ {a b : Op}, nonov a b → nonov b a := fun h => h.symm
  rw [opsOn, repackMachine_eq_map, List.filter_map]
  have h1 : ((enumF 0 s).filter
      ((fun op => decide (op.machine = m)) ∘
        fun p => ((repackChain none (blockOf s m)).lookup p.1).getD p.2)) =
      (enumF 0 s).filter (fun p => decide (p.2.machine = m)) := by
    refine List.filter_congr ?_
    intro p hp
    have hmach : (((repackChain none (blockOf s m)).lookup p.1).getD p.2).machine
        = p.2.machine := congrArg (fun t => t.2.2.2.1) (repack_fun_rowKey s m p hp)
    show decide ((((repackChain none (blockOf s m)).lookup p.1).getD p.2).machine = m)
      = decide (p.2.machine = m)
    rw [hmach]
  rw [h1]
  have hperm : List.Perm
      (((enumF 0 s).filter (fun p => decide (p.2.machine = m))).map
        (fun p => ((repackChain none (blockOf s m)).lookup p.1).getD p.2))
      ((blockOf s m).map
        (fun p => ((repackChain none (blockOf s m)).lookup p.1).getD p.2)) :=
    ((List.perm_insertionSort rowLe _).map _).symm
  refine (hperm.pairwise_iff hnonov_symm).2 ?_
  have hlen : (repackChain none (blockOf s m)).length = (blockOf s m).length := by
    have := congrArg List.length (repackChain_keys none (blockOf s m))
    simpa using this
  have hmapeq : (blockOf s m).map
        (fun p => ((repackChain none (blockOf s m)).lookup p.1).getD p.2)
      = (repackChain none (blockOf s m)).map Prod.snd := by
    refine List.ext_getElem (by simp [hlen]) ?_
    intro j h1j h2j
    have hj : j < (blockOf s m).length := by simpa using h1j
    have hju : j < (repackChain none (blockOf s m)).length := by rw [hlen]; exact hj
    have hkeyj : (repackChain none (blockOf s m))[j].1 = (blockOf s m)[j].1 := by
      have := congrArg (fun l => l[j]?) (repackChain_keys none (blockOf s m))
      simp only [List.getElem?_map] at this
      rw [List.getElem?_eq_getElem hju, List.getElem?_eq_getElem hj] at this
      simpa using this
    have hnd : ((repackChain none (blockOf s m)).map Prod.fst).Nodup := by
      rw [repackChain_keys]
      exact blockOf_keys_nodup s m
    have hlook : (repackChain none (blockOf s m)).lookup ((blockOf s m)[j].1)
        = some (repackChain none (blockOf s m))[j].2 := by
      refine lookup_eq_some_of_mem_nodup hnd ?_
      rw [← hkeyj]
      exact List.getElem_mem hju
    simp only [List.getElem_map]
    rw [hlook]
    rfl
  rw [hmapeq]
  have hd' : ∀ p ∈ blockOf s m, p.2.start ≤ p.2.stop := by
    intro p hp
    exact hd p.2 (enumF_mem_snd (blockOf_mem hp).1)
  have hpw := repackChain_pairwise (blockOf s m) none hd'
  exact List.pairwise_map.2 (hpw.imp (fun h => Or.inl h))

/-! ### The full repair pass -/

/-- All durations are non-negative (`start ≤ end` row-wise). -/
def dursOk (s : List Op) : Prop := ∀ op ∈ s, op.start ≤ op.stop

lemma dursOk_of_rowKey_eq {s s' : List Op} (h : s'.map rowKey = s.map rowKey)
    (hd : dursOk s) : dursOk s' := by
  intro op' hop'
  have hmem : rowKey op' ∈ s.map rowKey := h ▸ List.mem_map_of_mem rowKey hop'
  obtain ⟨op, hop, hk⟩ := List.mem_map.1 hmem
  have hdur : op.stop - op.start = op'.stop - op'.start :=
    congrArg (fun t => t.2.2.2.2.1) hk
  have := hd op hop
  linarith

lemma mem_uniqueFirst : ∀ {l : List String} {x : String}, x ∈ uniqueFirst l ↔ x ∈ l := by
  intro l
  induction l with
  | nil => simp [uniqueFirst]
  | cons a l ih =>
    intro x
    rw [uniqueFirst, List.mem_cons, List.mem_cons]
    constructor
    · rintro (rfl | hx)
      · exact Or.inl rfl
      · exact Or.inr (ih.1 (List.mem_filter.1 hx).1)
    · rintro (rfl | hx)
      · exact Or.inl rfl
      · by_cases hxa : x = a
        · exact Or.inl hxa
        · refine Or.inr (List.mem_filter.2 ⟨ih.2 hx, by simpa using hxa⟩)

lemma mem_touchedMachines_iff {s : List Op} {t : List String} {m : String} :
    m ∈ touchedMachines s t ↔ ∃ op ∈ s, op.order_id ∈ t ∧ op.machine = m := by
  rw [touchedMachines, mem_uniqueFirst, List.mem_map]
  constructor
  · rintro ⟨op, hop, rfl⟩
    have := List.mem_filter.1 hop
    exact ⟨op, this.1, by simpa using this.2, rfl⟩
  · rintro ⟨op, hop, ht, rfl⟩
    exact ⟨op, List.mem_filter.2 ⟨hop, by simpa using ht⟩, rfl⟩

lemma touchedMachines_subset {s : List Op} {t : List String} {m : String}
    (h : m ∈ touchedMachines s t) : m ∈ machinesOf s := by
  obtain ⟨op, hop, _, rfl⟩ := mem_touchedMachines_iff.1 h
  rw [machinesOf, mem_uniqueFirst]
  exact List.mem_map_of_mem _ hop

lemma foldl_repack_rowKey : ∀ (ms : List String) (s : List Op),
    (ms.foldl repackMachine s).map rowKey = s.map rowKey
  | [], _ => rfl
  | m :: rest, s => by
    rw [List.foldl_cons, foldl_repack_rowKey rest, repackMachine_rowKey]

lemma repack_rowKey (s : List Op) (t : List String) :
    (_repack_touched_machines s t).map rowKey = s.map rowKey :=
  foldl_repack_rowKey _ s

lemma foldl_repack_pairwise : ∀ (ms : List String) (s : List Op), dursOk s →
    (∀ m, m ∉ ms → List.Pairwise nonov (opsOn m s)) →
    ∀ m', List.Pairwise nonov (opsOn m' (ms.foldl repackMachine s)) := by
  intro ms
  induction ms with
  | nil =>
    intro s _ hprev m'
    exact hprev m' (List.not_mem_nil m')
  | cons m0 rest ih =>
    intro s hd hprev m'
    rw [List.foldl_cons]
    have hd1 : dursOk (repackMachine s m0) :=
      dursOk_of_rowKey_eq (repackMachine_rowKey s m0) hd
    refine ih (repackMachine s m0) hd1 ?_ m'
    intro m hm
    by_cases hmm : m = m0
    · rw [hmm]
      exact opsOn_repackMachine_self s m0 hd
    · rw [opsOn_repackMachine_ne hmm]
      refine hprev m ?_
      simp only [List.mem_cons, not_or]
      exact ⟨hmm, hm⟩

lemma repack_pairwise (s : List Op) (t : List String) (hd : dursOk s)
    (hprev : ∀ m, m ∉ touchedMachines s t → List.Pairwise nonov (opsOn m s)) :
    ∀ m, List.Pairwise nonov (opsOn m (_repack_touched_machines s t)) :=
  foldl_repack_pairwise (touchedMachines s t) s hd hprev

lemma applyUpdates_self (s : List Op) (u : List (ℕ × Op))
    (hmem : ∀ p ∈ u, p ∈ enumF 0 s) : applyUpdates s u = s := by
  rw [applyUpdates]
  have h : ∀ p ∈ enumF 0 s, ((u.lookup p.1).getD p.2) = (fun p : ℕ × Op => p.2) p := by
    intro p hp
    cases hl : u.lookup p.1 with
    | none => rfl
    | some v =>
      have hv := hmem _ (mem_of_lookup_eq_some hl)
      have heq : v = p.2 := enumF_functional hv hp
      rw [Option.getD_some, heq]
  rw [List.map_congr_left h]
  exact enumF_map_snd 0 s

lemma repackMachine_noop (s : List Op) (m : String) (h : noOverlapSorted s m) :
    repackMachine s m = s := by
  rw [repackMachine, repackChain_noop (blockOf s m) none (by intro v hv; cases hv) h]
  refine applyUpdates_self s (blockOf s m) ?_
  intro p hp
  exact (blockOf_mem hp).1

lemma repack_noop (s : List Op) (t : List String)
    (h : ∀ m ∈ machinesOf s, noOverlapSorted s m) :
    _repack_touched_machines s t = s := by
  rw [_repack_touched_machines]
  have haux : ∀ ms : List String, (∀ m ∈ ms, noOverlapSorted s m) →
      ms.foldl repackMachine s = s := by
    intro ms
    induction ms with
    | nil => intro _; rfl
    | cons m0 rest ih =>
      intro hms
      rw [List.foldl_cons, repackMachine_noop s m0 (hms m0 (List.mem_cons_self _ _))]
      exact ih (fun m hm => hms m (List.mem_cons_of_mem _ hm))
  exact haux _ (fun m hm => h m (touchedMachines_subset hm))

/-! ### The uniform shift and the mutation operations -/

lemma shiftOrder_rowKey (s : List Op) (oid : String) (d : ℚ) :
    (shiftOrder s oid d).map rowKey = s.map rowKey := by
  rw [shiftOrder, List.map_map]
  refine List.map_congr_left ?_
  intro op hop
  simp only [Function.comp_apply]
  by_cases h : op.order_id = oid
  · rw [if_pos h]
    simp only [rowKey, Prod.mk.injEq, eq_self_iff_true, true_and, and_true]
    ring
  · rw [if_neg h]

lemma apply_delay_rowKey (s : List Op) (oid : String) (d h m : ℚ) :
    (apply_delay s oid d h m).map rowKey = s.map rowKey := by
  rw [apply_delay, repack_rowKey, shiftOrder_rowKey]

lemma apply_swap_rowKey (s : List Op) (a b : String) :
    (apply_swap s a b).map rowKey = s.map rowKey := by
  rw [apply_swap]
  split
  · rfl
  · simp only [apply_delay_rowKey]

lemma opsOn_shiftOrder_not_touched {s : List Op} {oid : String} {d : ℚ} {m : String}
    (h : m ∉ touchedMachines (shiftOrder s oid d) [oid]) :
    opsOn m (shiftOrder s oid d) = opsOn m s := by
  rw [opsOn, shiftOrder, List.filter_map]
  have h1 : (s.filter
      ((fun op => decide (op.machine = m)) ∘ fun op =>
        if op.order_id = oid then
          { op with start := op.start + d, stop := op.start + d + (op.stop - op.start) }
        else op)) = s.filter (fun op => decide (op.machine = m)) := by
    refine List.filter_congr ?_
    intro op hop
    by_cases hid : op.order_id = oid
    · rw [Function.comp_apply, if_pos hid]
    · rw [Function.comp_apply, if_neg hid]
  rw [h1]
  have h2 : ∀ op ∈ s.filter (fun op => decide (op.machine = m)),
      (if op.order_id = oid then
        { op with start := op.start + d, stop := op.start + d + (op.stop - op.start) }
      else op) = op := by
    intro op hop
    have hmem := List.mem_filter.1 hop
    have hm : op.machine = m := by simpa using hmem.2
    rw [if_neg ?_]
    intro hid
    refine h (mem_touchedMachines_iff.2 ⟨?_, ?_, ?_, ?_⟩)
    · exact { op with start := op.start + d, stop := op.start + d + (op.stop - op.start) }
    · rw [shiftOrder]
      refine List.mem_map.2 ⟨op, hmem.1, ?_⟩
      rw [if_pos hid]
    · simpa using hid
    · exact hm
  rw [List.map_congr_left h2, List.map_id']
  rfl

lemma apply_delay_invariant (s : List Op) (oid : String) (d h m : ℚ) (hd : dursOk s)
    (hp : ∀ m', List.Pairwise nonov (opsOn m' s)) :
    dursOk (apply_delay s oid d h m) ∧
      ∀ m', List.Pairwise nonov (opsOn m' (apply_delay s oid d h m)) := by
  refine ⟨dursOk_of_rowKey_eq (apply_delay_rowKey s oid d h m) hd, ?_⟩
  rw [apply_delay]
  refine repack_pairwise _ _ (dursOk_of_rowKey_eq (shiftOrder_rowKey s oid _) hd) ?_
  intro m' hm'
  rw [opsOn_shiftOrder_not_touched hm']
  exact hp m'

lemma apply_swap_invariant (s : List Op) (a b : String) (hd : dursOk s)
    (hp : ∀ m', List.Pairwise nonov (opsOn m' s)) :
    dursOk (apply_swap s a b) ∧
      ∀ m', List.Pairwise nonov (opsOn m' (apply_swap s a b)) := by
  rw [apply_swap]
  split
  · exact ⟨hd, hp⟩
  · have h1 := apply_delay_invariant s a (tdDays (minStart s b - minStart s a))
      (tdSecs (minStart s b - minStart s a) / 3600 : ℕ)
      ((tdSecs (minStart s b - minStart s a) % 3600) / 60 : ℕ) hd hp
    exact apply_delay_invariant _ b _ _ _ h1.1 h1.2

/-! ### Invariants of the initial scheduler -/

/-- Rows in generation order: if two rows share a machine, the earlier one
ends no later than the later one starts. -/
def samePairOk (a b : Op) : Prop := a.machine = b.machine → a.stop ≤ b.start

lemma ratioRow_nonneg (sku k : String) : 0 ≤ ratioRow sku k := by
  unfold ratioRow
  split_ifs <;> norm_num

/-- Invariant carried through `placeOps`: every placed row starts no earlier
than the incoming timeline of its machine, has non-negative duration, and
ends no later than the outgoing timeline of its machine; the timeline only
advances; rows on a common machine appear in non-overlapping order. -/
def placeInv (o : Order) (kinds : List (String × ℕ)) (tl : Timeline) (pe : Option ℚ) : Prop :=
  (∀ op ∈ (placeOps o kinds tl pe).1,
      tl op.machine ≤ op.start ∧ op.start ≤ op.stop ∧
      op.stop ≤ (placeOps o kinds tl pe).2 op.machine) ∧
  (∀ m, tl m ≤ (placeOps o kinds tl pe).2 m) ∧
  List.Pairwise samePairOk (placeOps o kinds tl pe).1

lemma placeStep (o : Order) (hq : 0 ≤ o.qty_kg) (k : String) (seq : ℕ)
    (rest : List (String × ℕ)) (tl : Timeline) (pStart : ℚ)
    (hstart : tl (line_map k) ≤ pStart)
    (IH : ∀ (tl' : Timeline) (pe' : Option ℚ), placeInv o rest tl' pe') :
    (∀ op ∈ ((⟨o.order_id, k, seq, line_map k, pStart,
          pStart + o.qty_kg / 300 * ratioRow o.sku_id k, o.due_date, o.sku_id⟩ : Op) ::
        (placeOps o rest
          (updTl tl (line_map k) (pStart + o.qty_kg / 300 * ratioRow o.sku_id k))
          (some (pStart + o.qty_kg / 300 * ratioRow o.sku_id k))).1),
        tl op.machine ≤ op.start ∧ op.start ≤ op.stop ∧
        op.stop ≤ (placeOps o rest
          (updTl tl (line_map k) (pStart + o.qty_kg / 300 * ratioRow o.sku_id k))
          (some (pStart + o.qty_kg / 300 * ratioRow o.sku_id k))).2 op.machine) ∧
    (∀ m, tl m ≤ (placeOps o rest
        (updTl tl (line_map k) (pStart + o.qty_kg / 300 * ratioRow o.sku_id k))
        (some (pStart + o.qty_kg / 300 * ratioRow o.sku_id k))).2 m) ∧
    List.Pairwise samePairOk
      ((⟨o.order_id, k, seq, line_map k, pStart,
          pStart + o.qty_kg / 300 * ratioRow o.sku_id k, o.due_date, o.sku_id⟩ : Op) ::
        (placeOps o rest
          (updTl tl (line_map k) (pStart + o.qty_kg / 300 * ratioRow o.sku_id k))
          (some (pStart + o.qty_kg / 300 * ratioRow o.sku_id k))).1) := by
  have hdnn : 0 ≤ o.qty_kg / 300 * ratioRow o.sku_id k :=
    mul_nonneg (div_nonneg hq (by norm_num)) (ratioRow_nonneg _ _)
  set d := o.qty_kg / 300 * ratioRow o.sku_id k with hd
  have hEnd : pStart ≤ pStart + d := by linarith
  set tl' := updTl tl (line_map k) (pStart + d) with htl'
  have htlle : ∀ m, tl m ≤ tl' m := by
    intro m
    rw [htl', updTl]
    by_cases hm : m = line_map k
    · rw [if_pos hm, hm]
      linarith
    · rw [if_neg hm]
  have htl'self : tl' (line_map k) = pStart + d := by
    rw [htl', updTl, if_pos rfl]
  obtain ⟨ih1, ih2, ih3⟩ := IH tl' (some (pStart + d))
  refine ⟨?_, ?_, ?_⟩
  · intro op hop
    rcases List.mem_cons.1 hop with rfl | hop'
    · refine ⟨hstart, hEnd, ?_⟩
      have := ih2 (line_map k)
      rw [htl'self] at this
      exact this
    · obtain ⟨h1, h2, h3⟩ := ih1 op hop'
      exact ⟨le_trans (htlle op.machine) h1, h2, h3⟩
  · intro m
    exact le_trans (htlle m) (ih2 m)
  · refine List.Pairwise.cons ?_ ih3
    intro op hop hm
    have h1 := (ih1 op hop).1
    rw [← hm] at h1
    have h2 : tl' (line_map k) ≤ op.start := h1
    rw [htl'self] at h2
    exact h2

lemma placeOps_inv (o : Order) (hq : 0 ≤ o.qty_kg) :
    ∀ (kinds : List (String × ℕ)) (tl : Timeline) (pe : Option ℚ), placeInv o kinds tl pe := by
  intro kinds
  induction kinds with
  | nil =>
    intro tl pe
    refine ⟨?_, ?_, ?_⟩
    · intro op hop
      simp [placeOps] at hop
    · intro m
      exact le_refl _
    · simp [placeOps]
  | cons hd rest ih =>
    intro tl pe
    obtain ⟨k, seq⟩ := hd
    cases pe with
    | none =>
      exact placeStep o hq k seq rest tl (tl (line_map k)) (le_refl _) (fun tl' pe' => ih tl' pe')
    | some pe' =>
      exact placeStep o hq k seq rest tl (max pe' (tl (line_map k))) (le_max_right _ _)
        (fun tl' pe'' => ih tl' pe'')

lemma schedLoop_inv : ∀ (orders : List Order) (tl : Timeline),
    (∀ o ∈ orders, 0 ≤ o.qty_kg) →
    (∀ op ∈ schedLoop orders tl, tl op.machine ≤ op.start ∧ op.start ≤ op.stop) ∧
    List.Pairwise samePairOk (schedLoop orders tl) := by
  intro orders
  induction orders with
  | nil =>
    intro tl _
    constructor
    · intro op hop
      simp [schedLoop] at hop
    · simp [schedLoop]
  | cons o rest ih =>
    intro tl hq
    have hqo : 0 ≤ o.qty_kg := hq o (List.mem_cons_self _ _)
    have hqrest : ∀ o' ∈ rest, 0 ≤ o'.qty_kg := fun o' h => hq o' (List.mem_cons_of_mem _ h)
    obtain ⟨p1, p2, p3⟩ := placeOps_inv o hqo opKinds tl none
    obtain ⟨ihA, ihB⟩ := ih (placeOps o opKinds tl none).2 hqrest
    have hloop : schedLoop (o :: rest) tl =
        (placeOps o opKinds tl none).1 ++
          schedLoop rest (placeOps o opKinds tl none).2 := rfl
    rw [hloop]
    constructor
    · intro op hop
      rcases List.mem_append.1 hop with h | h
      · obtain ⟨a, b, _⟩ := p1 op h
        exact ⟨a, b⟩
      · obtain ⟨a, b⟩ := ihA op h
        exact ⟨le_trans (p2 op.machine) a, b⟩
    · rw [List.pairwise_append]
      refine ⟨p3, ihB, ?_⟩
      intro a ha b hb hm
      have h1 : a.stop ≤ (placeOps o opKinds tl none).2 a.machine := (p1 a ha).2.2
      have h2 : (placeOps o opKinds tl none).2 b.machine ≤ b.start := (ihA b hb).1
      rw [hm] at h1
      exact le_trans h1 h2

lemma load_inv (orders : List Order) (hq : ∀ o ∈ orders, 0 ≤ o.qty_kg) :
    dursOk (load_and_generate_data orders) ∧
    ∀ m, List.Pairwise nonov (opsOn m (load_and_generate_data orders)) := by
  have hq' : ∀ o ∈ List.insertionSort orderKeyLe orders, 0 ≤ o.qty_kg := by
    intro o ho
    exact hq o ((List.mem_insertionSort orderKeyLe).1 ho)
  obtain ⟨h1, h2⟩ := schedLoop_inv (List.insertionSort orderKeyLe orders) (fun _ => 0) hq'
  constructor
  · intro op hop
    exact (h1 op hop).2
  · intro m
    show List.Pairwise nonov
      ((schedLoop (List.insertionSort orderKeyLe orders) (fun _ => 0)).filter
        (fun op => decide (op.machine = m)))
    refine List.Pairwise.imp_of_mem ?_ (h2.filter (fun op => decide (op.machine = m)))
    intro a b ha hb hr
    have hma : a.machine = m := by simpa using (List.mem_filter.1 ha).2
    have hmb : b.machine = m := by simpa using (List.mem_filter.1 hb).2
    exact Or.inl (hr (hma.trans hmb.symm))

/-- The schedule invariant (non-negative durations and per-machine
non-overlap) holds in every reachable state. -/
lemma reachable_inv {orders : List Order} {s : List Op}
    (hq : ∀ o ∈ orders, 0 ≤ o.qty_kg) (h : Reachable orders s) :
    dursOk s ∧ ∀ m, List.Pairwise nonov (opsOn m s) := by
  induction h with
  | init => exact load_inv orders hq
  | delay oid d hh mm _ ih => exact apply_delay_invariant _ _ _ _ _ ih.1 ih.2
  | swap a b _ ih => exact apply_swap_invariant _ _ _ ih.1 ih.2

/-! ### Concrete data for witnesses and counterexamples -/

/-- A concrete shampoo order (300 kg, due first). -/
def o1 : Order := ⟨"ORD-001", "VRAC_SHAMPOO_BASE", 300, 1⟩

/-- A concrete shampoo order (300 kg, due second). -/
def o2 : Order := ⟨"ORD-002", "VRAC_SHAMPOO_BASE", 300, 2⟩

/-! ### Claim theorems C1, C3, C4 -/

/-- C1: for every schedule reachable from the initial build by any sequence
of Delay and Swap mutations (over an order file with the spec's non-negative
quantities), and for every machine `m`, the operations assigned to `m` have
pairwise non-overlapping-or-touching `[start, end)` intervals: any two
distinct operations on `m` satisfy `start` of one ≥ `end` of the other —
immediately after initial scheduling and after every `apply_delay` /
`apply_swap` call. -/
theorem c1_no_overlap_invariant (orders : List Order) (s : List Op) (m : String)
    (hq : ∀ o ∈ orders, 0 ≤ o.qty_kg) (h : Reachable orders s) :
    List.Pairwise nonov (opsOn m s) :=
  (reachable_inv hq h).2 m

/-- Witness for C1: the invariant holds concretely on machine MIX_1 after a
delay of ORD-002 by −0.6 minutes from the initial two-order build. -/
theorem c1_no_overlap_invariant_witness :
    List.Pairwise nonov (opsOn "MIX_1"
      (apply_delay (load_and_generate_data [o1, o2]) "ORD-002" 0 (-1/100) 0)) :=
  c1_no_overlap_invariant [o1, o2] _ "MIX_1" (by decide)
    (Reachable.delay "ORD-002" 0 (-1/100) 0 Reachable.init)

/-- C3: `_repack_touched_machines`, `apply_delay` and `apply_swap` preserve,
row by row (same dataframe index), the identity fields and the duration
`end − start` of every operation: only absolute placement moves. -/
theorem c3_duration_preservation :
    (∀ (s : List Op) (t : List String),
        (_repack_touched_machines s t).map rowKey = s.map rowKey) ∧
    (∀ (s : List Op) (oid : String) (d h m : ℚ),
        (apply_delay s oid d h m).map rowKey = s.map rowKey) ∧
    (∀ (s : List Op) (a b : String),
        (apply_swap s a b).map rowKey = s.map rowKey) :=
  ⟨repack_rowKey, apply_delay_rowKey, apply_swap_rowKey⟩

/-- C4: the initial scheduler equals the specification-side scheduler:
orders sorted by `due_date` then `order_id`; MIX, TRF, FILL, FIN in that
fixed sequence on that kind's fixed machine; `start` = max(machine free
instant, previous operation's end) except the first operation of an order,
which starts at the machine's free instant; `end = start + duration` with
`duration = qty/300 * ratio[product][kind]`; the machine's free instant then
advances to `end`. -/
theorem c4_initial_scheduler_follows_contract (orders : List Order) :
    load_and_generate_data orders = initSchedulerSpec orders :=
  schedLoop_eq_specSchedLoop _ _

/-! ### Claim theorems C10 and C9 -/

/-- C10: the repair pass is a no-op on already-valid schedules (on each
machine, the rows sorted by (`start`, `end`) already satisfy
`start[i+1] ≥ end[i]`), for any choice of touched orders; consequently
applying it twice with the same touched set equals applying it once. -/
theorem c10_repack_noop_idempotent (s : List Op) (t : List String)
    (h : ∀ m ∈ machinesOf s, noOverlapSorted s m) :
    _repack_touched_machines s t = s ∧
      _repack_touched_machines (_repack_touched_machines s t) t =
        _repack_touched_machines s t := by
  have h1 := repack_noop s t h
  refine ⟨h1, ?_⟩
  rw [h1]
  exact h1

/-- Witness for C10 on the concrete two-order initial schedule. -/
theorem c10_repack_noop_idempotent_witness :
    _repack_touched_machines (load_and_generate_data [o1, o2]) ["ORD-001"] =
      load_and_generate_data [o1, o2] ∧
    _repack_touched_machines
        (_repack_touched_machines (load_and_generate_data [o1, o2]) ["ORD-001"])
        ["ORD-001"] =
      _repack_touched_machines (load_and_generate_data [o1, o2]) ["ORD-001"] :=
  c10_repack_noop_idempotent (load_and_generate_data [o1, o2]) ["ORD-001"] (by decide)

lemma shiftOrder_shiftOrder_cancel (s : List Op) (oid : String) (d : ℚ) :
    shiftOrder (shiftOrder s oid d) oid (-d) = s := by
  rw [shiftOrder, shiftOrder, List.map_map]
  have h : ∀ op ∈ s,
      ((fun op : Op =>
          if op.order_id = oid then
            { op with start := op.start + -d, stop := op.start + -d + (op.stop - op.start) }
          else op) ∘ fun op : Op =>
          if op.order_id = oid then
            { op with start := op.start + d, stop := op.start + d + (op.stop - op.start) }
          else op) op = id op := by
    intro op _
    simp only [Function.comp_apply, id_eq]
    by_cases hid : op.order_id = oid
    · rw [if_pos hid, if_pos hid]
      cases op
      simp only [Op.mk.injEq, eq_self_iff_true, true_and, and_true]
      constructor <;> ring
    · rw [if_neg hid, if_neg hid]
  rw [List.map_congr_left h, List.map_id]

/-- The inter-operation gaps of one order: `start[i+1] − end[i]` over its
operations sorted by `sequence`. -/
def orderGaps (s : List Op) (oid : String) : List ℚ :=
  ((opsOfOrder s oid).zip ((opsOfOrder s oid).drop 1)).map (fun p => p.2.start - p.1.stop)

/-- Counterexample to C9 as stated: delaying ORD-002 by −0.6 minutes and
then by +0.6 minutes (no intervening mutation) does not restore ORD-002's
inter-operation gaps — the repack inside the first Delay moved ORD-002's
operations non-uniformly and the inverse Delay does not undo that. -/
theorem c9_counterexample :
    orderGaps (apply_delay
        (apply_delay (load_and_generate_data [o1, o2]) "ORD-002" 0 (-1/100) 0)
        "ORD-002" 0 (1/100) 0) "ORD-002"
      ≠ orderGaps (load_and_generate_data [o1, o2]) "ORD-002" := by
  decide

/-- C9 (amended): if neither repack shifts anything — the schedule and its
uniformly shifted version are already overlap-free on every machine — then
`Delay(Delay(S, o, Δ), o, −Δ)` reproduces `S` exactly (hence, in particular,
order `o`'s relative timing).  Without that proviso the first repack can
change `o`'s inter-operation gaps and the inverse Delay does not restore
them (see the counterexample). -/
theorem c9_delay_inverse_amended (s : List Op) (oid : String) (d h m : ℚ)
    (h1 : ∀ mc ∈ machinesOf s, noOverlapSorted s mc)
    (h2 : ∀ mc ∈ machinesOf (shiftOrder s oid (d * 24 + h + m / 60)),
        noOverlapSorted (shiftOrder s oid (d * 24 + h + m / 60)) mc) :
    apply_delay (apply_delay s oid d h m) oid (-d) (-h) (-m) = s := by
  have e1 : apply_delay s oid d h m = shiftOrder s oid (d * 24 + h + m / 60) := by
    rw [apply_delay, repack_noop _ _ h2]
  rw [e1, apply_delay]
  have e2 : shiftOrder (shiftOrder s oid (d * 24 + h + m / 60)) oid
      (-d * 24 + -h + -m / 60) = s := by
    rw [show -d * 24 + -h + -m / 60 = -(d * 24 + h + m / 60) by ring]
    exact shiftOrder_shiftOrder_cancel s oid (d * 24 + h + m / 60)
  rw [e2, repack_noop _ _ h1]

/-- Witness for the amended C9: delaying ORD-002 (the last order) by one day
and back restores the initial two-order schedule exactly. -/
theorem c9_delay_inverse_amended_witness :
    apply_delay (apply_delay (load_and_generate_data [o1, o2]) "ORD-002" 1 0 0)
        "ORD-002" (-1) (-0) (-0) = load_and_generate_data [o1, o2] :=
  c9_delay_inverse_amended (load_and_generate_data [o1, o2]) "ORD-002" 1 0 0
    (by decide) (by decide)

/-! ### The order-sequence invariant (claim C2) -/

lemma placeOps_order_id (o : Order) : ∀ (kinds : List (String × ℕ)) (tl : Timeline)
    (pe : Option ℚ), ∀ op ∈ (placeOps o kinds tl pe).1, op.order_id = o.order_id
  | [], _, _ => by
    intro op hop
    simp [placeOps] at hop
  | (k, seq) :: rest, tl, pe => by
    intro op hop
    rcases List.mem_cons.1 hop with rfl | h
    · rfl
    · exact placeOps_order_id o rest _ _ op h

lemma placeOps_seq_map (o : Order) : ∀ (kinds : List (String × ℕ)) (tl : Timeline)
    (pe : Option ℚ), ((placeOps o kinds tl pe).1).map (·.sequence) = kinds.map Prod.snd
  | [], _, _ => rfl
  | (_k, seq) :: rest, _tl, _pe =>
    congrArg (List.cons seq) (placeOps_seq_map o rest _ _)

lemma placeOps_seq_chain (o : Order) : ∀ (kinds : List (String × ℕ)) (tl : Timeline)
    (pe : Option ℚ),
    (∀ v, pe = some v → ∀ x ∈ ((placeOps o kinds tl pe).1).head?, v ≤ x.start) ∧
    List.Chain' (fun a b : Op => a.stop ≤ b.start) (placeOps o kinds tl pe).1
  | [], tl, pe => by
    constructor
    · intro v hv x hx
      simp [placeOps] at hx
    · simp [placeOps]
  | (k, seq) :: rest, tl, pe => by
    constructor
    · intro v hv x hx
      subst hv
      have hcons : (placeOps o ((k, seq) :: rest) tl (some v)).1 =
          (⟨o.order_id, k, seq, line_map k, max v (tl (line_map k)),
            max v (tl (line_map k)) + o.qty_kg / 300 * ratioRow o.sku_id k,
            o.due_date, o.sku_id⟩ : Op) ::
          (placeOps o rest
            (updTl tl (line_map k)
              (max v (tl (line_map k)) + o.qty_kg / 300 * ratioRow o.sku_id k))
            (some (max v (tl (line_map k)) +
              o.qty_kg / 300 * ratioRow o.sku_id k))).1 := rfl
      rw [hcons] at hx
      have hx' : x = (⟨o.order_id, k, seq, line_map k, max v (tl (line_map k)),
          max v (tl (line_map k)) + o.qty_kg / 300 * ratioRow o.sku_id k,
          o.due_date, o.sku_id⟩ : Op) := by
        have := hx
        simp only [List.head?_cons, Option.mem_def, Option.some.injEq] at this
        exact this.symm
      rw [hx']
      exact le_max_left _ _
    · refine List.chain'_cons'.2 ⟨?_, (placeOps_seq_chain o rest _ _).2⟩
      intro y hy
      exact (placeOps_seq_chain o rest _ _).1 _ rfl y hy

lemma schedLoop_ids : ∀ (orders : List Order) (tl : Timeline),
    ∀ op ∈ schedLoop orders tl, op.order_id ∈ orders.map Order.order_id
  | [], _ => by
    intro op hop
    simp [schedLoop] at hop
  | o :: rest, tl => by
    intro op hop
    rcases List.mem_append.1 hop with h | h
    · rw [List.map_cons, placeOps_order_id o opKinds tl none op h]
      exact List.mem_cons_self _ _
    · rw [List.map_cons]
      exact List.mem_cons_of_mem _ (schedLoop_ids rest _ op h)

lemma schedLoop_filter_cases : ∀ (orders : List Order) (tl : Timeline) (oid : String),
    (orders.map Order.order_id).Nodup →
    ((schedLoop orders tl).filter (fun op => decide (op.order_id = oid)) = [] ∨
     ∃ (o' : Order) (tl' : Timeline),
       (schedLoop orders tl).filter (fun op => decide (op.order_id = oid)) =
         (placeOps o' opKinds tl' none).1)
  | [], tl, oid, _ => by
    left
    rfl
  | o :: rest, tl, oid, hnd => by
    rw [List.map_cons, List.nodup_cons] at hnd
    have happ : (schedLoop (o :: rest) tl).filter (fun op => decide (op.order_id = oid)) =
        ((placeOps o opKinds tl none).1.filter (fun op => decide (op.order_id = oid))) ++
          ((schedLoop rest (placeOps o opKinds tl none).2).filter
            (fun op => decide (op.order_id = oid))) := by
      rw [show schedLoop (o :: rest) tl =
          (placeOps o opKinds tl none).1 ++ schedLoop rest (placeOps o opKinds tl none).2
          from rfl, List.filter_append]
    by_cases hid : o.order_id = oid
    · right
      refine ⟨o, tl, ?_⟩
      rw [happ]
      have h1 : (placeOps o opKinds tl none).1.filter (fun op => decide (op.order_id = oid)) =
          (placeOps o opKinds tl none).1 := by
        rw [List.filter_eq_self]
        intro op hop
        rw [placeOps_order_id o opKinds tl none op hop, hid]
        simp
      have h2 : (schedLoop rest (placeOps o opKinds tl none).2).filter
          (fun op => decide (op.order_id = oid)) = [] := by
        rw [List.filter_eq_nil_iff]
        intro op hop
        have := schedLoop_ids rest _ op hop
        simp only [decide_eq_true_eq]
        intro heq
        exact hnd.1 (by rw [hid, ← heq]; exact this)
      rw [h1, h2, List.append_nil]
    · have h1 : (placeOps o opKinds tl none).1.filter (fun op => decide (op.order_id = oid)) =
          [] := by
        rw [List.filter_eq_nil_iff]
        intro op hop
        rw [placeOps_order_id o opKinds tl none op hop]
        simpa using hid
      rcases schedLoop_filter_cases rest (placeOps o opKinds tl none).2 oid hnd.2 with h | h
      · left
        rw [happ, h1, h, List.nil_append]
      · right
        obtain ⟨o', tl', h⟩ := h
        refine ⟨o', tl', ?_⟩
        rw [happ, h1, h, List.nil_append]

lemma load_seq_chain (orders : List Order)
    (hnd : (orders.map Order.order_id).Nodup) (oid : String) :
    seqChainOk (load_and_generate_data orders) oid := by
  have hnd' : ((List.insertionSort orderKeyLe orders).map Order.order_id).Nodup :=
    (((List.perm_insertionSort orderKeyLe orders).map Order.order_id).nodup_iff).2 hnd
  show List.Chain' (fun a b : Op => a.stop ≤ b.start)
    (List.insertionSort seqLe
      ((schedLoop (List.insertionSort orderKeyLe orders) (fun _ => 0)).filter
        (fun op => decide (op.order_id = oid))))
  rcases schedLoop_filter_cases (List.insertionSort orderKeyLe orders) (fun _ => 0) oid hnd'
    with h | ⟨o', tl', h⟩
  · rw [h]
    simp
  · rw [h]
    have hsorted : List.Sorted seqLe (placeOps o' opKinds tl' none).1 := by
      have hpw : List.Pairwise (fun a b : ℕ => a ≤ b)
          (((placeOps o' opKinds tl' none).1).map (·.sequence)) := by
        rw [placeOps_seq_map]
        decide
      exact (List.pairwise_map (f := fun op : Op => op.sequence)).1 hpw
    rw [hsorted.insertionSort_eq]
    exact (placeOps_seq_chain o' opKinds tl' none).2

lemma mem_opsOfOrder {s : List Op} {oid' : String} {x : Op}
    (h : x ∈ opsOfOrder s oid') : x.order_id = oid' := by
  rw [opsOfOrder, List.mem_insertionSort] at h
  simpa using (List.mem_filter.1 h).2

lemma orderedInsert_map_seq (g : Op → Op) (hg : ∀ op, (g op).sequence = op.sequence)
    (a : Op) : ∀ l : List Op,
      List.orderedInsert seqLe (g a) (l.map g) = (List.orderedInsert seqLe a l).map g
  | [] => rfl
  | b :: l => by
    have hiff : seqLe (g a) (g b) ↔ seqLe a b := by
      show (g a).sequence ≤ (g b).sequence ↔ a.sequence ≤ b.sequence
      rw [hg, hg]
    by_cases h : seqLe a b
    · rw [List.map_cons, List.orderedInsert, List.orderedInsert,
        if_pos (hiff.2 h), if_pos h, List.map_cons, List.map_cons]
    · rw [List.map_cons, List.orderedInsert, List.orderedInsert,
        if_neg (fun hc => h (hiff.1 hc)), if_neg h, List.map_cons,
        orderedInsert_map_seq g hg a l]

lemma insertionSort_map_seq (g : Op → Op) (hg : ∀ op, (g op).sequence = op.sequence) :
    ∀ l : List Op,
      List.insertionSort seqLe (l.map g) = (List.insertionSort seqLe l).map g
  | [] => rfl
  | a :: l => by
    rw [List.map_cons, List.insertionSort, List.insertionSort,
      insertionSort_map_seq g hg l, orderedInsert_map_seq g hg]

lemma opsOfOrder_shift (s : List Op) (oid : String) (d : ℚ) (oid' : String) :
    opsOfOrder (shiftOrder s oid d) oid' =
      (opsOfOrder s oid').map (fun op =>
        if op.order_id = oid then
          { op with start := op.start + d, stop := op.start + d + (op.stop - op.start) }
        else op) := by
  rw [opsOfOrder, opsOfOrder, shiftOrder, List.filter_map]
  rw [List.filter_congr (q := fun op => decide (op.order_id = oid'))]
  · exact insertionSort_map_seq _ (fun op => by by_cases h : op.order_id = oid <;> simp [h]) _
  · intro op hop
    by_cases h : op.order_id = oid
    · rw [Function.comp_apply, if_pos h]
    · rw [Function.comp_apply, if_neg h]

lemma seqChainOk_shift {s : List Op} {oid' : String} (h : seqChainOk s oid')
    (oid : String) (d : ℚ) : seqChainOk (shiftOrder s oid d) oid' := by
  rw [seqChainOk, opsOfOrder_shift]
  by_cases hoid : oid' = oid
  · subst hoid
    have hmap : (opsOfOrder s oid').map (fun op =>
        if op.order_id = oid' then
          { op with start := op.start + d, stop := op.start + d + (op.stop - op.start) }
        else op) = (opsOfOrder s oid').map (fun op =>
          { op with start := op.start + d, stop := op.start + d + (op.stop - op.start) }) := by
      refine List.map_congr_left ?_
      intro op hop
      rw [if_pos (mem_opsOfOrder hop)]
    rw [hmap, List.chain'_map]
    refine h.imp ?_
    intro a b hab
    show a.start + d + (a.stop - a.start) ≤ b.start + d
    linarith
  · have hmap : (opsOfOrder s oid').map (fun op =>
        if op.order_id = oid then
          { op with start := op.start + d, stop := op.start + d + (op.stop - op.start) }
        else op) = opsOfOrder s oid' := by
      have h1 : ∀ op ∈ opsOfOrder s oid', (if op.order_id = oid then
          { op with start := op.start + d, stop := op.start + d + (op.stop - op.start) }
        else op) = id op := by
        intro op hop
        rw [if_neg (by rw [mem_opsOfOrder hop]; exact hoid), id_eq]
      rw [List.map_congr_left h1, List.map_id]
    rw [hmap]
    exact h

/-- Counterexample to C2 as stated: advancing ORD-002 by 0.6 minutes is a
reachable mutation after which ORD-002's operations, sorted by `sequence`,
violate `start[i+1] ≥ end[i]` (the repack pushed ORD-002's MIX back behind
its own TRF). -/
theorem c2_counterexample :
    Reachable [o1, o2]
        (apply_delay (load_and_generate_data [o1, o2]) "ORD-002" 0 (-1/100) 0) ∧
      ¬ seqChainOk (apply_delay (load_and_generate_data [o1, o2]) "ORD-002" 0 (-1/100) 0)
          "ORD-002" :=
  ⟨Reachable.delay "ORD-002" 0 (-1/100) 0 Reachable.init, by decide⟩

/-- C2 (amended): the order-sequence invariant `start[i+1] ≥ end[i]` (per
order, sorted by `sequence`) holds after initial scheduling for every order
file with distinct order ids, and is preserved by the uniform pre-repack
shift of Delay; the repair pass, however, can break it (see the
counterexample), so it does not hold in all reachable states. -/
theorem c2_order_sequence_amended :
    (∀ (orders : List Order) (oid : String), (orders.map Order.order_id).Nodup →
        seqChainOk (load_and_generate_data orders) oid) ∧
    (∀ (s : List Op) (oid' oid : String) (d : ℚ),
        seqChainOk s oid' → seqChainOk (shiftOrder s oid d) oid') :=
  ⟨fun orders oid h => load_seq_chain orders h oid,
   fun _ _ oid d h => seqChainOk_shift h oid d⟩

/-- Witness for the amended C2 on the concrete two-order build. -/
theorem c2_order_sequence_amended_witness :
    seqChainOk (load_and_generate_data [o1, o2]) "ORD-002" ∧
    seqChainOk (shiftOrder (load_and_generate_data [o1, o2]) "ORD-002" (-1/100))
      "ORD-002" :=
  ⟨c2_order_sequence_amended.1 [o1, o2] "ORD-002" (by decide),
   c2_order_sequence_amended.2 (load_and_generate_data [o1, o2]) "ORD-002" "ORD-002"
     (-1/100) (by decide)⟩

/-! ### Swap's timedelta truncation (claim C5) -/

/-- The delta actually applied by `apply_swap`'s `timedelta` decomposition is
the original delta floored to whole minutes. -/
lemma td_delta (x : ℚ) :
    (tdDays x : ℚ) * 24 + ((tdSecs x / 3600 : ℕ) : ℚ) +
        ((tdSecs x % 3600 / 60 : ℕ) : ℚ) / 60
      = ((⌊x * 60⌋ : ℤ) : ℚ) / 60 := by
  have hD1 : ((⌊x / 24⌋ : ℤ) : ℚ) ≤ x / 24 := Int.floor_le _
  have hD2 : x / 24 < (⌊x / 24⌋ : ℤ) + 1 := Int.lt_floor_add_one _
  have hq1 : ((⌊x * 60⌋ : ℤ) : ℚ) ≤ x * 60 := Int.floor_le _
  have hq2 : x * 60 < (⌊x * 60⌋ : ℤ) + 1 := Int.lt_floor_add_one _
  have hNge : 86400 * ⌊x / 24⌋ ≤ ⌊x * 3600⌋ := by
    refine Int.le_floor.2 ?_
    push_cast
    have := mul_le_mul_of_nonneg_right hD1 (by norm_num : (0:ℚ) ≤ 86400)
    linarith
  have hNlt : ⌊x * 3600⌋ < 86400 * (⌊x / 24⌋ + 1) := by
    refine Int.floor_lt.2 ?_
    push_cast
    have := mul_lt_mul_of_pos_right hD2 (by norm_num : (0:ℚ) < 86400)
    linarith
  have hq60 : 60 * ⌊x * 60⌋ ≤ ⌊x * 3600⌋ := by
    refine Int.le_floor.2 ?_
    push_cast
    have := mul_le_mul_of_nonneg_right hq1 (by norm_num : (0:ℚ) ≤ 60)
    linarith
  have hqlt : ⌊x * 3600⌋ < 60 * ⌊x * 60⌋ + 60 := by
    refine Int.floor_lt.2 ?_
    push_cast
    have := mul_lt_mul_of_pos_right hq2 (by norm_num : (0:ℚ) < 60)
    linarith
  have hS : (tdSecs x : ℤ) = ⌊x * 3600⌋ - 86400 * ⌊x / 24⌋ := by
    rw [tdSecs]
    exact Int.toNat_of_nonneg (by linarith)
  set a := tdSecs x / 3600 with ha
  set b := tdSecs x % 3600 / 60 with hb
  have hz : 1440 * ⌊x / 24⌋ + 60 * (a : ℤ) + (b : ℤ) = ⌊x * 60⌋ := by
    rw [ha, hb]
    omega
  have hzQ : (1440 : ℚ) * ((⌊x / 24⌋ : ℤ) : ℚ) + 60 * (a : ℚ) + (b : ℚ)
      = ((⌊x * 60⌋ : ℤ) : ℚ) := by
    exact_mod_cast hz
  rw [tdDays, eq_div_iff (by norm_num : (60:ℚ) ≠ 0)]
  ring_nf
  ring_nf at hzQ
  linarith [hzQ]

/-- A one-operation order on machine M1 starting at time 0. -/
def opA : Op := ⟨"A", "MIX", 1, "M1", 0, 1, 0, ""⟩

/-- A one-operation order on machine M2 starting 2 h 30 s after `opA`
(30 s = 1/120 h, deliberately not a whole number of minutes). -/
def opB : Op := ⟨"B", "MIX", 1, "M2", 2 + 1/120, 3, 0, ""⟩

/-- Counterexample to C5 as stated: on a schedule whose first-start gap is
2 h 30 s, `apply_swap` is not `Delay(A, startB − startA)` followed by
`Delay(B, startA − startB)` (the timedelta decomposition drops the 30 s),
and B's first operation ends up starting strictly before A's original first
start — which no "repacking shift" (always rightward) can explain. -/
theorem c5_counterexample :
    apply_swap [opA, opB] "A" "B" ≠
      apply_delay
        (apply_delay [opA, opB] "A" 0 (minStart [opA, opB] "B" - minStart [opA, opB] "A") 0)
        "B" 0 (minStart [opA, opB] "A" - minStart [opA, opB] "B") 0 ∧
    minStart (apply_swap [opA, opB] "A" "B") "B" < minStart [opA, opB] "A" :=
  ⟨by decide, by decide⟩

/-- C5 (amended): for every schedule and orders `a`, `b` present in it,
`apply_swap` equals Delay(a, Δ_A') then Delay(b, Δ_B') where
`Δ_A' = ⌊(startB − startA)·60⌋/60` and `Δ_B' = ⌊(startA − startB)·60⌋/60`
are the exact deltas floored to whole minutes (so B's first operation lands
on A's original start exactly only when the gap is a whole number of
minutes). -/
theorem c5_swap_truncates_amended (s : List Op) (a b : String)
    (ha : s.filter (fun op => decide (op.order_id = a)) ≠ [])
    (hb : s.filter (fun op => decide (op.order_id = b)) ≠ []) :
    apply_swap s a b =
      apply_delay
        (apply_delay s a 0 0 ((⌊(minStart s b - minStart s a) * 60⌋ : ℤ) : ℚ))
        b 0 0 ((⌊(minStart s a - minStart s b) * 60⌋ : ℤ) : ℚ) := by
  rw [apply_swap, if_neg (by push_neg; exact ⟨ha, hb⟩)]
  have hdelta : ∀ y : ℚ,
      (tdDays y : ℚ) * 24 + ((tdSecs y / 3600 : ℕ) : ℚ) +
          ((tdSecs y % 3600 / 60 : ℕ) : ℚ) / 60
        = (0 : ℚ) * 24 + 0 + ((⌊y * 60⌋ : ℤ) : ℚ) / 60 := by
    intro y
    rw [td_delta]
    ring
  show apply_delay
      (apply_delay s a (tdDays (minStart s b - minStart s a))
        ((tdSecs (minStart s b - minStart s a) / 3600 : ℕ) : ℚ)
        ((tdSecs (minStart s b - minStart s a) % 3600 / 60 : ℕ) : ℚ))
      b (tdDays (minStart s a - minStart s b))
        ((tdSecs (minStart s a - minStart s b) / 3600 : ℕ) : ℚ)
        ((tdSecs (minStart s a - minStart s b) % 3600 / 60 : ℕ) : ℚ) = _
  rw [apply_delay, apply_delay, apply_delay, apply_delay, hdelta, hdelta]

/-- Witness for the amended C5 on the concrete 2 h 30 s schedule. -/
theorem c5_swap_truncates_amended_witness :
    apply_swap [opA, opB] "A" "B" =
      apply_delay
        (apply_delay [opA, opB] "A" 0 0
          ((⌊(minStart [opA, opB] "B" - minStart [opA, opB] "A") * 60⌋ : ℤ) : ℚ))
        "B" 0 0 ((⌊(minStart [opA, opB] "A" - minStart [opA, opB] "B") * 60⌋ : ℤ) : ℚ) :=
  c5_swap_truncates_amended [opA, opB] "A" "B" (by decide) (by decide)

/-! ### `normalize_order_references` (claim C8)

Character-level model of the two `re.sub` passes of `src/app.py` lines
298-343: first `\b(ord(?:er)?)\s*(?:number\s*)?(?P<num>\d{1,3}|\w+)\b` with
`repl`, then `\border\s*#(\d{1,3})\b` with `repl_hash`, both
case-insensitive.  `\w`/`\s` are modelled over ASCII (the inputs of the
claims are ASCII).  Backtracking notes: `\s*` and `\w+` may take maximal
munch because the token that must follow each cannot begin with the dropped
character; the alternation `\d{1,3}|\w+` tries 3, 2, 1 digits (each with a
trailing word boundary) before the word branch; the optional
`(?:number\s*)?` is tried consumed first and dropped on failure. -/

/-- ASCII model of the regex class `\w`. -/
def isWordChar (c : Char) : Bool := c.isAlphanum || c = '_'

/-- ASCII model of the regex class `\s`. -/
def isSpaceChar (c : Char) : Bool :=
  c = ' ' || c = '\t' || c = '\n' || c = '\r' || c = '\x0b' || c = '\x0c'

/-- Case-insensitive character comparison (`re.I`). -/
def lowEq (a b : Char) : Bool := a.toLower = b.toLower

/-- Case-insensitively match a literal; returns the consumed original
characters and the remainder. -/
def matchLit : List Char → List Char → Option (List Char × List Char)
  | [], cs => some ([], cs)
  | _ :: _, [] => none
  | l :: ls, c :: cs =>
    if lowEq c l then
      match matchLit ls cs with
      | some (g, rest) => some (c :: g, rest)
      | none => none
    else none

/-- The `NUM_WORDS` table of `src/app.py` lines 291-296. -/
def NUM_WORDS : List (String × ℕ) :=
  [("zero", 0), ("one", 1), ("two", 2), ("three", 3), ("four", 4), ("five", 5),
   ("six", 6), ("seven", 7), ("eight", 8), ("nine", 9), ("ten", 10),
   ("eleven", 11), ("twelve", 12), ("thirteen", 13), ("fourteen", 14),
   ("fifteen", 15), ("sixteen", 16), ("seventeen", 17), ("eighteen", 18),
   ("nineteen", 19), ("twenty", 20)]

/-- Word boundary after a match: end of input or a non-word character. -/
def boundaryOk : List Char → Bool
  | [] => true
  | c :: _ => !isWordChar c

/-- `\d{k}` followed by `\b`. -/
def tryDigits (k : ℕ) (cs : List Char) : Option (List Char × List Char) :=
  let ds := cs.take k
  if ds.length = k && ds.all Char.isDigit && boundaryOk (cs.drop k) then
    some (ds, cs.drop k)
  else none

/-- `\d{1,3}\b`, greedy. -/
def tryDigits13 (cs : List Char) : Option (List Char × List Char) :=
  match tryDigits 3 cs with
  | some r => some r
  | none =>
    match tryDigits 2 cs with
    | some r => some r
    | none => tryDigits 1 cs

/-- `\w+` (maximal munch; the trailing `\b` is then automatic). -/
def wordRun (cs : List Char) : Option (List Char × List Char) :=
  let r := cs.span isWordChar
  if r.1 = [] then none else some r

/-- The capture group `(\d{1,3}|\w+)\b`. -/
def matchNum (cs : List Char) : Option (List Char × List Char) :=
  match tryDigits13 cs with
  | some r => some r
  | none => wordRun cs

/-- `(?:number\s*)?(\d{1,3}|\w+)\b`: returns (consumed before the capture,
capture, rest). -/
def matchTail (rest2 : List Char) : Option (List Char × List Char × List Char) :=
  match matchLit "number".data rest2 with
  | some (g, r) =>
    let sp2 := r.span isSpaceChar
    match matchNum sp2.2 with
    | some (raw, rest) => some (g ++ sp2.1, raw, rest)
    | none =>
      match matchNum rest2 with
      | some (raw, rest) => some ([], raw, rest)
      | none => none
  | none =>
    match matchNum rest2 with
    | some (raw, rest) => some ([], raw, rest)
    | none => none

/-- A whole `ORDER_REF_RE` match starting here (the caller has already
checked the left word boundary): returns (whole match, capture, rest). -/
def matchOrderRef (cs : List Char) : Option (List Char × List Char × List Char) :=
  let tryLead := fun (lit : List Char) =>
    match matchLit lit cs with
    | some (lead, rest1) =>
      let sp := rest1.span isSpaceChar
      match matchTail sp.2 with
      | some (mid, raw, rest) => some (lead ++ sp.1 ++ mid ++ raw, raw, rest)
      | none => none
    | none => none
  match tryLead "order".data with
  | some r => some r
  | none => tryLead "ord".data

/-- Numeric value of a digit run (`int(raw)`). -/
def natOfDigits (ds : List Char) : ℕ :=
  ds.foldl (fun n c => n * 10 + (c.toNat - '0'.toNat)) 0

/-- `raw.lower() in NUM_WORDS` lookup. -/
def numWordLookup (w : List Char) : Option ℕ :=
  NUM_WORDS.lookup (String.mk (w.map Char.toLower))

/-- The digits of `"%03d" % n`. -/
def pad3 (n : ℕ) : List Char :=
  let ds := (Nat.repr n).data
  if ds.length < 3 then List.replicate (3 - ds.length) '0' ++ ds else ds

/-- `repl` of `normalize_order_references`: keep the match unless the
capture is a number (digits or a `NUM_WORDS` word) in 1..100. -/
def replOrderRef (g0 raw : List Char) : List Char :=
  let n? : Option ℕ :=
    if raw ≠ [] && raw.all Char.isDigit then some (natOfDigits raw)
    else numWordLookup raw
  match n? with
  | none => g0
  | some n => if n < 1 || n > 100 then g0 else "ORD-".data ++ pad3 n

/-- Left-to-right non-overlapping substitution for `ORDER_REF_RE`
(`re.sub` semantics).  `prevW` is whether the previous original character
is a word character (for `\b`); the fuel is an upper bound on the number of
steps (each step consumes at least one input character). -/
def subOrder : Bool → ℕ → List Char → List Char
  | _, 0, cs => cs
  | _, _ + 1, [] => []
  | prevW, fuel + 1, c :: cs =>
    if !prevW && isWordChar c then
      match matchOrderRef (c :: cs) with
      | some (g0, raw, rest) => replOrderRef g0 raw ++ subOrder true fuel rest
      | none => c :: subOrder (isWordChar c) fuel cs
    else c :: subOrder (isWordChar c) fuel cs

/-- A whole `\border\s*#(\d{1,3})\b` match starting here. -/
def matchHashRef (cs : List Char) : Option (List Char × List Char × List Char) :=
  match matchLit "order".data cs with
  | some (lead, rest1) =>
    let sp := rest1.span isSpaceChar
    match sp.2 with
    | '#' :: r2 =>
      match tryDigits13 r2 with
      | some (ds, rest) => some (lead ++ sp.1 ++ '#' :: ds, ds, rest)
      | none => none
    | _ => none
  | none => none

/-- `repl_hash`: keep the match unless the digits are in 1..100. -/
def replHashRef (g0 ds : List Char) : List Char :=
  let n := natOfDigits ds
  if n < 1 || n > 100 then g0 else "ORD-".data ++ pad3 n

/-- Substitution pass for the hash form. -/
def subHash : Bool → ℕ → List Char → List Char
  | _, 0, cs => cs
  | _, _ + 1, [] => []
  | prevW, fuel + 1, c :: cs =>
    if !prevW && isWordChar c then
      match matchHashRef (c :: cs) with
      | some (g0, ds, rest) => replHashRef g0 ds ++ subHash true fuel rest
      | none => c :: subHash (isWordChar c) fuel cs
    else c :: subHash (isWordChar c) fuel cs

/-- `normalize_order_references` (`src/app.py` lines 317-343): the
`ORDER_REF_RE` substitution followed by the hash-form substitution. -/
def normalize_order_references (s : String) : String :=
  let t1 := subOrder false (s.data.length + 1) s.data
  String.mk (subHash false (t1.length + 1) t1)

/-- C8: `normalize_order_references` rewrites digit forms ("order n"),
word forms ("order seven", "order number seven") and hash forms ("order #n")
into the canonical zero-padded `ORD-###` token for every n in 1..100, and
leaves out-of-range or unrecognized numeric tokens unmodified; in
particular "delay order seven by 2 days" maps to text containing
"ORD-007" and "order 101" is returned unchanged. -/
theorem c8_normalize_order_references :
    normalize_order_references "delay order seven by 2 days" = "delay ORD-007 by 2 days" ∧
    normalize_order_references "order 101" = "order 101" ∧
    ((List.range 100).all (fun k =>
        normalize_order_references ("order " ++ Nat.repr (k + 1)) ==
          String.mk ("ORD-".data ++ pad3 (k + 1))) = true) ∧
    ((List.range 100).all (fun k =>
        normalize_order_references ("order #" ++ Nat.repr (k + 1)) ==
          String.mk ("ORD-".data ++ pad3 (k + 1))) = true) ∧
    (NUM_WORDS.all (fun p =>
        p.2 == 0 ||
          normalize_order_references ("order " ++ p.1) ==
            String.mk ("ORD-".data ++ pad3 p.2)) = true) ∧
    normalize_order_references "order number seven" = "ORD-007" ∧
    normalize_order_references "order 0" = "order 0" ∧
    normalize_order_references "order 999" = "order 999" ∧
    normalize_order_references "order #101" = "order #101" ∧
    normalize_order_references "order banana" = "order banana" :=
  ⟨by decide, by decide, by decide, by decide, by decide, by decide, by decide,
   by decide, by decide, by decide⟩

/-! ### The intent validator and command pipeline (claims C6, C7) -/

/-- A duration field of the intent payload: absent key, JSON `null`, a
number, or a string together with its `float()`-coercion result (`none`
when `float()` would raise).  Floats are exact rationals here; `NaN`/`inf`
are not modelled. -/
inductive PyField
  | absent
  | null
  | num (v : ℚ)
  | str (coe : Option ℚ)
deriving DecidableEq, Repr

/-- The intent payload record produced by the extractor (spec section 3). -/
structure Payload where
  intent : Option String
  order_id : Option String
  order_id_2 : Option String
  days : PyField
  hours : PyField
  minutes : PyField
deriving DecidableEq, Repr

/-- `oid and (orders_df["order_id"] == oid).any()` — a `None` or empty
(Python-falsy) id never "exists"; otherwise membership in the loaded
order-id universe. -/
def order_exists (ids : List String) : Option String → Bool
  | none => false
  | some o => !(o == "") && decide (o ∈ ids)

/-- `float(payload[k])` for a present non-null field (`none` = raises). -/
def coerceField : PyField → Option PyField
  | .absent => some .absent
  | .null => some .null
  | .num v => some (.num v)
  | .str (some v) => some (.num v)
  | .str none => none

/-- Python truthiness of `payload.get(k)` after the coercion loop. -/
def truthy : PyField → Bool
  | .num v => decide (v ≠ 0)
  | _ => false

/-- `validate_intent` (`src/app.py` lines 436-469): (ok, message, payload
after the in-place numeric coercions the function performed).  The final
`return False, "Invalid payload"` of the Python is unreachable (every
intent value reaches an earlier return). -/
def validate_intent (p : Payload) (ids : List String) : Bool × String × Payload :=
  if ¬ (p.intent = some "delay_order" ∨ p.intent = some "swap_orders") then
    (false, "Unsupported intent", p)
  else if order_exists ids p.order_id = false then
    (false, "Unknown order: " ++ p.order_id.getD "None", p)
  else if p.intent = some "swap_orders" then
    if order_exists ids p.order_id_2 = false then
      (false, "Unknown order: " ++ p.order_id_2.getD "None", p)
    else if p.order_id_2 = p.order_id then
      (false, "Cannot swap same order", p)
    else (true, "ok", p)
  else
    match coerceField p.days with
    | none => (false, "days must be numeric", p)
    | some d =>
      match coerceField p.hours with
      | none => (false, "hours must be numeric", { p with days := d })
      | some h =>
        match coerceField p.minutes with
        | none => (false, "minutes must be numeric", { p with days := d, hours := h })
        | some mn =>
          let p' := { p with days := d, hours := h, minutes := mn }
          if truthy d || truthy h || truthy mn then (true, "ok", p')
          else (false, "Need duration (days/hours/minutes)", p')

/-- A duration field is numeric-coercible (trivially so when absent or
null, as the claim scopes the requirement to present non-null fields). -/
def fieldCoercible : PyField → Prop
  | .str none => False
  | _ => True

instance : DecidablePred fieldCoercible := fun f =>
  match f with
  | .absent => isTrue trivial
  | .null => isTrue trivial
  | .num _ => isTrue trivial
  | .str (some _) => isTrue trivial
  | .str none => isFalse id

/-- The numeric value of a duration field (absent/null count as zero). -/
def fieldVal : PyField → ℚ
  | .num v => v
  | .str (some v) => v
  | _ => 0

/-- Claim C6's acceptance condition exactly as stated: order ids need only
exist in the loaded order set. -/
def claimC6Accepts (p : Payload) (ids : List String) : Prop :=
  (p.intent = some "delay_order" ∧ (∃ x ∈ ids, p.order_id = some x) ∧
    (fieldCoercible p.days ∧ fieldCoercible p.hours ∧ fieldCoercible p.minutes) ∧
    (fieldVal p.days ≠ 0 ∨ fieldVal p.hours ≠ 0 ∨ fieldVal p.minutes ≠ 0)) ∨
  (p.intent = some "swap_orders" ∧ (∃ x ∈ ids, p.order_id = some x) ∧
    (∃ x ∈ ids, p.order_id_2 = some x) ∧ p.order_id_2 ≠ p.order_id)

/-- The amended acceptance condition: ids must moreover be non-empty
strings (Python truthiness of `oid` in `order_exists`). -/
def amendedC6Accepts (p : Payload) (ids : List String) : Prop :=
  (p.intent = some "delay_order" ∧ (∃ x ∈ ids, p.order_id = some x ∧ x ≠ "") ∧
    (fieldCoercible p.days ∧ fieldCoercible p.hours ∧ fieldCoercible p.minutes) ∧
    (fieldVal p.days ≠ 0 ∨ fieldVal p.hours ≠ 0 ∨ fieldVal p.minutes ≠ 0)) ∨
  (p.intent = some "swap_orders" ∧ (∃ x ∈ ids, p.order_id = some x ∧ x ≠ "") ∧
    (∃ x ∈ ids, p.order_id_2 = some x ∧ x ≠ "") ∧ p.order_id_2 ≠ p.order_id)

lemma order_exists_iff (ids : List String) (o : Option String) :
    order_exists ids o = true ↔ ∃ x ∈ ids, o = some x ∧ x ≠ "" := by
  cases o with
  | none => simp [order_exists]
  | some x =>
    simp only [order_exists, Bool.and_eq_true, Bool.not_eq_true', beq_eq_false_iff_ne,
      ne_eq, decide_eq_true_eq]
    constructor
    · rintro ⟨hne, hmem⟩
      exact ⟨x, hmem, rfl, hne⟩
    · rintro ⟨y, hmem, heq, hne⟩
      cases heq
      exact ⟨hne, hmem⟩

lemma coerceField_none_iff (f : PyField) : coerceField f = none ↔ ¬ fieldCoercible f := by
  cases f with
  | absent => simp [coerceField, fieldCoercible]
  | null => simp [coerceField, fieldCoercible]
  | num v => simp [coerceField, fieldCoercible]
  | str c =>
    cases c with
    | none => simp [coerceField, fieldCoercible]
    | some v => simp [coerceField, fieldCoercible]

lemma truthy_coerceField {f d : PyField} (h : coerceField f = some d) :
    (truthy d = true ↔ fieldVal f ≠ 0) := by
  cases f with
  | absent => cases h; simp [truthy, fieldVal]
  | null => cases h; simp [truthy, fieldVal]
  | num v => cases h; simp [truthy, fieldVal]
  | str c =>
    cases c with
    | none => simp [coerceField] at h
    | some v =>
      cases h
      simp [truthy, fieldVal]

lemma fieldCoercible_of_coerce {f d : PyField} (h : coerceField f = some d) :
    fieldCoercible f := by
  by_contra hc
  rw [← coerceField_none_iff] at hc
  rw [hc] at h
  cases h

/-- C6 (amended): `validate_intent` accepts exactly when the intent is
`delay_order` or `swap_orders`, `order_id` is a **non-empty** string that
exists in the loaded order set, for `swap_orders` `order_id_2` likewise
exists (non-empty) and differs from `order_id`, and for `delay_order` every
present non-null duration field is numeric-coercible with at least one of
them non-zero.  (The non-emptiness guard is Python truthiness in
`order_exists`; the claim as stated omits it, see the counterexample.) -/
theorem c6_validator_accepts_iff_amended (p : Payload) (ids : List String) :
    (validate_intent p ids).1 = true ↔ amendedC6Accepts p ids := by
  have hfst : ∀ (m : String) (q : Payload),
      (((false, m, q) : Bool × String × Payload).1 = true) ↔ False := by
    intro m q
    simp
  have htrue : ∀ (m : String) (q : Payload),
      (((true, m, q) : Bool × String × Payload).1 = true) ↔ True := by
    intro m q
    simp
  unfold validate_intent
  by_cases h1 : p.intent = some "delay_order" ∨ p.intent = some "swap_orders"
  · rw [if_neg (not_not_intro h1)]
    by_cases h2 : order_exists ids p.order_id = false
    · rw [if_pos h2, hfst, false_iff]
      rintro (⟨_, hid, _, _⟩ | ⟨_, hid, _, _⟩) <;>
      · rw [← order_exists_iff] at hid
        rw [h2] at hid
        exact Bool.false_ne_true hid
    · rw [if_neg h2]
      replace h2 : order_exists ids p.order_id = true := by
        cases hx : order_exists ids p.order_id
        · exact absurd hx h2
        · rfl
      have hid1 : ∃ x ∈ ids, p.order_id = some x ∧ x ≠ "" := (order_exists_iff _ _).1 h2
      by_cases h3 : p.intent = some "swap_orders"
      · rw [if_pos h3]
        have hnd : ¬ p.intent = some "delay_order" := by
          rw [h3]
          intro hcon
          exact absurd (Option.some.inj hcon) (by decide)
        by_cases h4 : order_exists ids p.order_id_2 = false
        · rw [if_pos h4, hfst, false_iff]
          rintro (⟨hi, _, _, _⟩ | ⟨_, _, hid2, _⟩)
          · exact hnd hi
          · rw [← order_exists_iff] at hid2
            rw [h4] at hid2
            exact Bool.false_ne_true hid2
        · rw [if_neg h4]
          replace h4 : order_exists ids p.order_id_2 = true := by
            cases hx : order_exists ids p.order_id_2
            · exact absurd hx h4
            · rfl
          have hid2 : ∃ x ∈ ids, p.order_id_2 = some x ∧ x ≠ "" :=
            (order_exists_iff _ _).1 h4
          by_cases h5 : p.order_id_2 = p.order_id
          · rw [if_pos h5, hfst, false_iff]
            rintro (⟨hi, _, _, _⟩ | ⟨_, _, _, hne⟩)
            · exact hnd hi
            · exact hne h5
          · rw [if_neg h5, htrue, true_iff]
            exact Or.inr ⟨h3, hid1, hid2, h5⟩
      · have hdel : p.intent = some "delay_order" := h1.resolve_right h3
        rw [if_neg h3]
        cases hd : coerceField p.days with
        | none =>
          rw [hfst, false_iff]
          rintro (⟨_, _, ⟨hcd, _, _⟩, _⟩ | ⟨hi, _, _, _⟩)
          · exact ((coerceField_none_iff _).1 hd) hcd
          · exact h3 hi
        | some d =>
          cases hh : coerceField p.hours with
          | none =>
            rw [hfst, false_iff]
            rintro (⟨_, _, ⟨_, hch, _⟩, _⟩ | ⟨hi, _, _, _⟩)
            · exact ((coerceField_none_iff _).1 hh) hch
            · exact h3 hi
          | some hq =>
            cases hm : coerceField p.minutes with
            | none =>
              rw [hfst, false_iff]
              rintro (⟨_, _, ⟨_, _, hcm⟩, _⟩ | ⟨hi, _, _, _⟩)
              · exact ((coerceField_none_iff _).1 hm) hcm
              · exact h3 hi
            | some mq =>
              show (if (truthy d || truthy hq || truthy mq) = true then
                  ((true, "ok",
                    { p with days := d, hours := hq, minutes := mq }) :
                      Bool × String × Payload)
                else
                  (false, "Need duration (days/hours/minutes)",
                    { p with days := d, hours := hq, minutes := mq })).1 = true ↔
                amendedC6Accepts p ids
              by_cases h6 : (truthy d || truthy hq || truthy mq) = true
              · rw [if_pos h6, htrue, true_iff]
                refine Or.inl ⟨hdel, hid1,
                  ⟨fieldCoercible_of_coerce hd, fieldCoercible_of_coerce hh,
                    fieldCoercible_of_coerce hm⟩, ?_⟩
                rw [Bool.or_eq_true, Bool.or_eq_true] at h6
                rcases h6 with (h6 | h6) | h6
                · exact Or.inl ((truthy_coerceField hd).1 h6)
                · exact Or.inr (Or.inl ((truthy_coerceField hh).1 h6))
                · exact Or.inr (Or.inr ((truthy_coerceField hm).1 h6))
              · rw [if_neg h6, hfst, false_iff]
                rintro (⟨_, _, _, hv⟩ | ⟨hi, _, _, _⟩)
                · refine h6 ?_
                  rw [Bool.or_eq_true, Bool.or_eq_true]
                  rcases hv with hv | hv | hv
                  · exact Or.inl (Or.inl ((truthy_coerceField hd).2 hv))
                  · exact Or.inl (Or.inr ((truthy_coerceField hh).2 hv))
                  · exact Or.inr ((truthy_coerceField hm).2 hv)
                · exact h3 hi
  · rw [if_pos h1, hfst, false_iff]
    rintro (⟨hi, _, _, _⟩ | ⟨hi, _, _, _⟩)
    · exact h1 (Or.inl hi)
    · exact h1 (Or.inr hi)

/-- A payload naming the empty-string order id, which Python truthiness
rejects even when `""` is in the order universe. -/
def pEmptyId : Payload :=
  ⟨some "delay_order", some "", none, PyField.num 1, PyField.absent, PyField.absent⟩

/-- Counterexample to C6 as stated: over the order universe `[""]` the
payload `pEmptyId` satisfies the claim's acceptance condition (its order id
exists in the universe, its duration is numeric and non-zero) yet
`validate_intent` rejects it, because `oid and ...` treats the empty string
as falsy. -/
theorem c6_counterexample :
    (validate_intent pEmptyId [""]).1 = false ∧ claimC6Accepts pEmptyId [""] :=
  ⟨by decide,
   Or.inl ⟨rfl, ⟨"", by simp, rfl⟩, ⟨trivial, trivial, trivial⟩,
     Or.inl (by norm_num [pEmptyId, fieldVal])⟩⟩

/-- One record of the bounded command log (`st.session_state.cmd_log`).
`ok` models the `accepted` flag; the wall-clock `ts` and provenance
`source` strings carry no scheduling content and are omitted. -/
structure LogEntry where
  raw : String
  normalized : String
  payload : Payload
  ok : Bool
  msg : String
deriving DecidableEq, Repr

/-- The mutable session state the pipeline touches: the current schedule
and the command log. -/
structure AppState where
  schedule_df : List Op
  cmd_log : List LogEntry
deriving DecidableEq, Repr

/-- `payload.get(k, 0)` followed by `float(x or 0)` inside `apply_delay`:
absent and null duration fields become `0`. -/
def fieldValD : PyField → ℚ
  | .num v => v
  | _ => 0

/-- `_process_and_apply` (`src/app.py` lines 679-723), parameterised over
the intent extractor (`extract_intent` chains a regex stage with an
external OpenAI stage; the theorem below holds for every extractor, hence
for that concrete chain).  The log is appended to and truncated to its last
50 entries before the accept/reject branch; on rejection the function
returns before any mutation of the schedule. -/
def _process_and_apply (extract : String → Payload) (ids : List String)
    (st : AppState) (cmd : String) : AppState :=
  let normalized := normalize_order_references cmd
  let payload := extract normalized
  let r := validate_intent payload ids
  let entry : LogEntry := ⟨cmd, normalized, r.2.2, r.1, r.2.1⟩
  let log0 := st.cmd_log ++ [entry]
  let log := log0.drop (log0.length - 50)
  let st1 : AppState := ⟨st.schedule_df, log⟩
  if r.1 = false then st1
  else if r.2.2.intent = some "delay_order" then
    { st1 with
      schedule_df := apply_delay st.schedule_df (r.2.2.order_id.getD "")
        (fieldValD r.2.2.days) (fieldValD r.2.2.hours) (fieldValD r.2.2.minutes) }
  else
    { st1 with
      schedule_df := apply_swap st.schedule_df (r.2.2.order_id.getD "")
        (r.2.2.order_id_2.getD "") }

lemma getLast?_drop_concat (l : List LogEntry) (e : LogEntry) (k : ℕ)
    (hk : k ≤ l.length) : ((l ++ [e]).drop k).getLast? = some e := by
  rw [List.drop_append_of_le_length hk, List.getLast?_concat]

/-- C7: whenever validation fails (unknown order, same-order swap,
non-numeric or zero duration, unsupported intent — any reason), the
pipeline leaves the current schedule completely unchanged and appends a log
record with `ok = false` carrying validation's human-readable reason; this
holds for every extractor, order universe, state and command. -/
theorem c7_rejected_command_leaves_schedule (extract : String → Payload)
    (ids : List String) (st : AppState) (cmd : String)
    (h : (validate_intent (extract (normalize_order_references cmd)) ids).1 = false) :
    (_process_and_apply extract ids st cmd).schedule_df = st.schedule_df ∧
    ∃ e, (_process_and_apply extract ids st cmd).cmd_log.getLast? = some e ∧
      e.ok = false ∧
      e.msg = (validate_intent (extract (normalize_order_references cmd)) ids).2.1 := by
  unfold _process_and_apply
  rw [if_pos h]
  refine ⟨rfl, ⟨⟨cmd, normalize_order_references cmd,
    (validate_intent (extract (normalize_order_references cmd)) ids).2.2,
    (validate_intent (extract (normalize_order_references cmd)) ids).1,
    (validate_intent (extract (normalize_order_references cmd)) ids).2.1⟩, ?_, h, rfl⟩⟩
  show ((st.cmd_log ++ [_]).drop ((st.cmd_log ++ [_]).length - 50)).getLast? = _
  refine getLast?_drop_concat _ _ _ ?_
  rw [List.length_append]
  simp

/-- A constant extractor standing for an unparseable command. -/
def badExtract : String → Payload :=
  fun _ => ⟨some "make_coffee", none, none, PyField.absent, PyField.absent, PyField.absent⟩

/-- Witness for C7: an unsupported intent is rejected, the (empty) schedule
is unchanged and the rejection is logged with `ok = false`. -/
theorem c7_rejected_command_leaves_schedule_witness :
    (_process_and_apply badExtract ["ORD-001"] ⟨[], []⟩ "please make coffee").schedule_df =
      (⟨[], []⟩ : AppState).schedule_df ∧
    ∃ e, (_process_and_apply badExtract ["ORD-001"] ⟨[], []⟩
        "please make coffee").cmd_log.getLast? = some e ∧
      e.ok = false ∧
      e.msg = (validate_intent
        (badExtract (normalize_order_references "please make coffee")) ["ORD-001"]).2.1 :=
  c7_rejected_command_leaves_schedule badExtract ["ORD-001"] ⟨[], []⟩ "please make coffee"
    (by decide)

end Sched
